import Mathlib

/-!
Verification of the product URL / image resolution pipeline of `app.py`
(Crestron guided-selling demo).  The network (the `requests` library) is
modelled as an oracle mapping a URL to an optional response; a `none`
response stands both for a raised exception and for a transport failure,
which the source code treats identically (every network call is wrapped in
a broad `try/except`).  All pure computations (SKU regex extraction,
cache-key construction, `quote_plus` encoding, the CDN size rewrite,
base64 embedding, candidate filtering) are translated directly from the
source.
-/

namespace CrestronDemo

/-! ## Basic string machinery (Python `in`, `startswith`, `.upper()` ...) -/

/-- Boolean list-prefix test (`p` is a prefix of `s`). -/
def listPrefixB : List Char → List Char → Bool
  | [], _ => true
  | _ :: _, [] => false
  | p :: ps, s :: ss => p = s && listPrefixB ps ss

/-- Boolean substring test: `p` occurs somewhere inside `s`
(Python `p in s`).  The empty pattern occurs in every string. -/
def listContainsB (p : List Char) : List Char → Bool
  | [] => listPrefixB p []
  | c :: s => listPrefixB p (c :: s) || listContainsB p s

/-- Python `sub in s` on strings. -/
def strContains (s sub : String) : Bool := listContainsB sub.data s.data

/-- Python `s.startswith(p)`. -/
def strStarts (s p : String) : Bool := listPrefixB p.data s.data

/-- Python `s.endswith(p)`. -/
def strEnds (s p : String) : Bool := listPrefixB p.data.reverse s.data.reverse

/-- Python `s.upper()` (ASCII letters; sufficient for the catalog data). -/
def strUpper (s : String) : String := ⟨s.data.map Char.toUpper⟩

/-- Python `s.lower()` (ASCII letters). -/
def strLower (s : String) : String := ⟨s.data.map Char.toLower⟩

theorem listPrefixB_append (p s t : List Char) (h : listPrefixB p s = true) :
    listPrefixB p (s ++ t) = true := by
  induction p generalizing s with
  | nil => simp [listPrefixB]
  | cons c ps ih =>
    cases s with
    | nil => simp [listPrefixB] at h
    | cons d ss =>
      simp only [listPrefixB, Bool.and_eq_true] at h ⊢
      exact ⟨h.1, ih ss h.2⟩

theorem listContainsB_ne_nil (p : List Char) (s : List Char)
    (hp : p ≠ []) (h : listContainsB p s = true) : s ≠ [] := by
  intro hs
  subst hs
  cases p with
  | nil => exact hp rfl
  | cons c ps => simp [listContainsB, listPrefixB] at h

/-! ## `urllib.parse.quote_plus`

Model of the Python standard-library collaborator: letters, digits and
`_.-~` are kept, a space becomes `+`, every other character is
percent-encoded byte-wise after UTF-8 encoding, with uppercase hex. -/

def hexDigitChars : List Char :=
  ['0','1','2','3','4','5','6','7','8','9','A','B','C','D','E','F']

def hexChar (n : Nat) : Char := hexDigitChars.getD n '0'

/-- Percent-encoding of a single byte, `%XX` with uppercase hex. -/
def pctByte (b : Nat) : List Char := ['%', hexChar (b / 16 % 16), hexChar (b % 16)]

/-- UTF-8 byte sequence of a character (by code point). -/
def utf8Bytes (c : Char) : List Nat :=
  let n := c.toNat
  if n < 128 then [n]
  else if n < 2048 then [192 + n / 64, 128 + n % 64]
  else if n < 65536 then [224 + n / 4096, 128 + n / 64 % 64, 128 + n % 64]
  else [240 + n / 262144, 128 + n / 4096 % 64, 128 + n / 64 % 64, 128 + n % 64]

/-- Characters `quote_plus` never encodes (beyond the space). -/
def quotePlusSafe (c : Char) : Bool :=
  c.isAlphanum || c = '_' || c = '.' || c = '-' || c = '~'

def quotePlusChar (c : Char) : List Char :=
  if c = ' ' then ['+']
  else if quotePlusSafe c then [c]
  else (utf8Bytes c).flatMap pctByte

/-- Python `urllib.parse.quote_plus`. -/
def quotePlus (s : String) : String := ⟨s.data.flatMap quotePlusChar⟩

theorem hexChar_ne_space (n : Nat) : hexChar n ≠ ' ' := by
  unfold hexChar hexDigitChars
  rcases n with _ | _ | _ | _ | _ | _ | _ | _ | _ | _ | _ | _ | _ | _ | _ | _ | n <;>
    simp [List.getD]

theorem quotePlusChar_no_space (c : Char) : ' ' ∉ quotePlusChar c := by
  unfold quotePlusChar
  by_cases h1 : c = ' '
  · simp [h1]
  · rw [if_neg h1]
    by_cases h2 : quotePlusSafe c = true
    · rw [if_pos h2]
      simp only [List.mem_singleton]
      exact fun h => h1 h.symm
    · rw [if_neg h2]
      intro hmem
      rcases List.mem_flatMap.mp hmem with ⟨b, _, hb⟩
      simp only [pctByte, List.mem_cons, List.not_mem_nil, or_false] at hb
      rcases hb with h | h | h
      · exact absurd h (by decide)
      · exact hexChar_ne_space _ h.symm
      · exact hexChar_ne_space _ h.symm

theorem quotePlus_no_space (s : String) : ' ' ∉ (quotePlus s).data := by
  unfold quotePlus
  intro h
  rcases List.mem_flatMap.mp h with ⟨c, _, hc⟩
  exact quotePlusChar_no_space c hc

/-! ## SKU extraction

Source:
`SKU_REGEX = re.compile(r"\b[A-Z]{1,8}(?:-[A-Z0-9]{1,10}){1,8}\b")`,
`extract_sku` runs `findall` on the upper-cased name and returns
`sorted(matches, key=len, reverse=True)[0]` (a stable descending sort, so
the first longest match, in match order, wins).

The matcher below implements the backtracking semantics of this concrete
pattern: greedy letter run (8 down to 1), then one to eight greedy
`-[A-Z0-9]{1,10}` groups, and `\b` word boundaries on both sides.  Word
characters follow the ASCII classes. -/

def isWordChar (c : Char) : Bool := c.isAlpha || c.isDigit || c = '_'

/-- `[A-Z0-9]` class of the SKU pattern. -/
def isSkuAlnum (c : Char) : Bool := c.isUpper || c.isDigit

/-- Trailing `\b`: the previous char of the match is a word char, so the
boundary holds iff the rest is empty or starts with a non-word char. -/
def boundaryAfter : List Char → Bool
  | [] => true
  | c :: _ => !isWordChar c

/-- Exiting the group quantifier: allowed only when at least one group was
matched (`canStop`) and the trailing `\b` holds. -/
def matchExit (canStop : Bool) (t : List Char) : Option (List Char) :=
  if canStop && boundaryAfter t then some t else none

/-- Match `(?:-[A-Z0-9]{1,10}){0,fuel}\b` greedily at `t`; `canStop` tells
whether at least one group was already consumed (the quantifier is
`{1,8}`, so the first group is mandatory).  Returns the suffix after the
match. -/
def matchReps : Nat → Bool → List Char → Option (List Char)
  | 0, canStop, t => matchExit canStop t
  | fuel' + 1, canStop, t =>
    match t with
    | [] => matchExit canStop []
    | c :: t' =>
      if c = '-' then
        match (List.range 10).findSome? (fun i =>
          let m := 10 - i
          if m ≤ t'.length && (t'.take m).all isSkuAlnum then
            matchReps fuel' true (t'.drop m)
          else none) with
        | some e => some e
        | none => matchExit canStop (c :: t')
      else matchExit canStop (c :: t')

/-- Match `[A-Z]{1,8}(?:-[A-Z0-9]{1,10}){1,8}\b` at the head of `t`
(greedy, with backtracking); returns the suffix after the match. -/
def matchSkuAt (t : List Char) : Option (List Char) :=
  (List.range 8).findSome? (fun i =>
    let k := 8 - i
    if k ≤ t.length && (t.take k).all Char.isUpper then
      matchReps 8 false (t.drop k)
    else none)

theorem mem_of_findSome_eq_some {α β : Type} {l : List α} {f : α → Option β} {b : β}
    (h : l.findSome? f = some b) : ∃ a ∈ l, f a = some b := by
  induction l with
  | nil => simp [List.findSome?] at h
  | cons x xs ih =>
    cases hfx : f x with
    | some y =>
      simp only [List.findSome?_cons, hfx] at h
      exact ⟨x, List.mem_cons_self x xs, by rw [hfx, h]⟩
    | none =>
      simp only [List.findSome?_cons, hfx] at h
      obtain ⟨a, ha, hfa⟩ := ih h
      exact ⟨a, List.mem_cons_of_mem _ ha, hfa⟩

theorem matchExit_eq_some {canStop : Bool} {t e : List Char}
    (h : matchExit canStop t = some e) : e = t := by
  unfold matchExit at h
  split at h
  · cases h; rfl
  · cases h

theorem matchReps_length_le (fuel : Nat) (canStop : Bool) (t : List Char)
    (e : List Char) (h : matchReps fuel canStop t = some e) :
    e.length ≤ t.length := by
  induction fuel generalizing canStop t with
  | zero =>
    exact le_of_eq (by rw [matchExit_eq_some h])
  | succ fuel' ih =>
    cases t with
    | nil =>
      exact le_of_eq (by rw [matchExit_eq_some h])
    | cons c t' =>
      unfold matchReps at h
      simp only at h
      by_cases hc : c = '-'
      · rw [if_pos hc] at h
        split at h
        · rename_i e' heq
          obtain rfl : e' = e := by injection h
          obtain ⟨i, _, hsome⟩ := mem_of_findSome_eq_some heq
          split at hsome
          · have hle := ih true _ hsome
            have hdl : (t'.drop (10 - i)).length ≤ t'.length := by
              simp [List.length_drop]
            exact le_trans hle (le_trans hdl (by simp))
          · cases hsome
        · exact le_of_eq (by rw [matchExit_eq_some h])
      · rw [if_neg hc] at h
        exact le_of_eq (by rw [matchExit_eq_some h])

theorem matchSkuAt_length_lt (t : List Char) (e : List Char)
    (h : matchSkuAt t = some e) : e.length < t.length := by
  obtain ⟨i, hi, hsome⟩ := mem_of_findSome_eq_some h
  simp only at hsome
  split at hsome
  · rename_i hcond
    have hk : 1 ≤ 10 - i ∨ True := Or.inr trivial
    have hle := matchReps_length_le 8 false _ _ hsome
    have hik : i < 8 := by
      simpa using List.mem_range.mp hi
    have : (t.drop (8 - i)).length = t.length - (8 - i) := by
      simp [List.length_drop]
    have hkt : 8 - i ≤ t.length := by
      rcases Bool.and_eq_true _ _ |>.mp hcond with ⟨h1, _⟩
      simpa using h1
    omega
  · cases hsome

/-- Non-overlapping left-to-right scan of `re.findall`: at each position a
match is attempted (the leading `\b` holds iff the previous character is
not a word character, tracked by `prevW`); on success the scan resumes
after the match.  The fuel argument (instantiated with the length of the
scanned list, an upper bound on the number of scan steps since each step
strictly shortens the list) keeps the recursion structural. -/
def skuScanF : Nat → List Char → Bool → List (List Char)
  | 0, _, _ => []
  | fuel + 1, t, prevW =>
    match t with
    | [] => []
    | c :: rest =>
      if prevW then skuScanF fuel rest (isWordChar c)
      else
        match matchSkuAt (c :: rest) with
        | some e =>
          (c :: rest).take ((c :: rest).length - e.length) :: skuScanF fuel e true
        | none => skuScanF fuel rest (isWordChar c)

/-- `SKU_REGEX.findall(s)` for the source pattern. -/
def skuFindall (s : String) : List String :=
  (skuScanF s.data.length s.data false).map (fun l => ⟨l⟩)

/-- Stable insertion into a length-descending sorted list: the new element
goes in front of the first element whose length does not exceed it. -/
def insertLenDesc (a : String) : List String → List String
  | [] => [a]
  | b :: l => if b.length ≤ a.length then a :: b :: l else b :: insertLenDesc a l

/-- Python `sorted(matches, key=len, reverse=True)`: a stable sort by
length, descending (Timsort is stable and `reverse=True` reverses each
comparison, not the result). -/
def sortLenDesc : List String → List String
  | [] => []
  | a :: l => insertLenDesc a (sortLenDesc l)

/-- `extract_sku` from the source: `findall` on the upper-cased name;
`None` when there is no match, else `sorted(matches, key=len, reverse=True)[0]`. -/
def extract_sku (product_name : String) : Option String :=
  match skuFindall (strUpper product_name) with
  | [] => none
  | m :: ms => (sortLenDesc (m :: ms)).head?

example : extract_sku "UC-BX30-Z" = some "UC-BX30-Z" := by decide
example : extract_sku "Crestron Flex UC-BX30-Z kit" = some "UC-BX30-Z" := by decide
example : extract_sku "plain name" = none := by decide
example : extract_sku "" = none := by decide
example : extract_sku "A-1 BCD-22-EF" = some "BCD-22-EF" := by decide

example : extract_sku "uc-bx30-z" = some "UC-BX30-Z" := by decide
example : extract_sku "AB-CDE_" = none := by decide
example : extract_sku "_UC-X1" = none := by decide
example : extract_sku "X1-2B" = none := by decide
example : extract_sku "AB-CD ZZ-YY" = some "AB-CD" := by decide

/-- Leftmost-maximal selection: the element an (earlier-first) stable
length-descending sort puts in front — the longest match, ties broken by
match order.  This is the specification-side characterisation of
`sorted(matches, key=len, reverse=True)[0]`. -/
def firstLongest : List String → Option String
  | [] => none
  | x :: l =>
    match firstLongest l with
    | none => some x
    | some y => some (if y.length ≤ x.length then x else y)

theorem head_insertLenDesc (a : String) (l : List String) :
    (insertLenDesc a l).head? =
      some (match l.head? with
            | none => a
            | some b => if b.length ≤ a.length then a else b) := by
  cases l with
  | nil => simp [insertLenDesc]
  | cons b l' =>
    by_cases h : b.length ≤ a.length
    · simp [insertLenDesc, h]
    · simp [insertLenDesc, h]

theorem head_sortLenDesc (l : List String) :
    (sortLenDesc l).head? = firstLongest l := by
  induction l with
  | nil => simp [sortLenDesc, firstLongest]
  | cons a l' ih =>
    rw [sortLenDesc, head_insertLenDesc, firstLongest]
    cases hfl : firstLongest l' with
    | none =>
      have hnil : l' = [] := by
        cases l' with
        | nil => rfl
        | cons b l'' =>
          rw [firstLongest] at hfl
          cases h2 : firstLongest l'' <;> rw [h2] at hfl <;> cases hfl
      subst hnil
      simp [sortLenDesc]
    | some y =>
      have hhead : (sortLenDesc l').head? = some y := by rw [ih, hfl]
      rw [hhead]

theorem firstLongest_le (l : List String) (y : String)
    (h : firstLongest l = some y) : ∀ z ∈ l, z.length ≤ y.length := by
  induction l generalizing y with
  | nil => simp [firstLongest] at h
  | cons x l' ih =>
    rw [firstLongest] at h
    cases hfl : firstLongest l' with
    | none =>
      rw [hfl] at h
      cases h
      intro z hz
      have hnil : l' = [] := by
        cases l' with
        | nil => rfl
        | cons b l'' =>
          rw [firstLongest] at hfl
          cases h2 : firstLongest l'' <;> rw [h2] at hfl <;> cases hfl
      subst hnil
      simp at hz
      simp [hz]
    | some w =>
      rw [hfl] at h
      cases h
      intro z hz
      rcases List.mem_cons.mp hz with rfl | hz'
      · by_cases hw : w.length ≤ z.length <;> simp [hw] <;> omega
      · have := ih w hfl z hz'
        by_cases hw : w.length ≤ x.length <;> simp [hw] <;> omega

/-- The element `firstLongest` returns splits the list into a strictly
shorter part before it and a no-longer part after it: it is the first
longest element in list order. -/
theorem firstLongest_split (l : List String) (m : String)
    (h : firstLongest l = some m) :
    ∃ l₁ l₂, l = l₁ ++ m :: l₂ ∧ (∀ x ∈ l₁, x.length < m.length) ∧
      (∀ x ∈ l₂, x.length ≤ m.length) := by
  induction l generalizing m with
  | nil => simp [firstLongest] at h
  | cons x l' ih =>
    rw [firstLongest] at h
    cases hfl : firstLongest l' with
    | none =>
      rw [hfl] at h
      cases h
      have hnil : l' = [] := by
        cases l' with
        | nil => rfl
        | cons b l'' =>
          rw [firstLongest] at hfl
          cases h2 : firstLongest l'' <;> rw [h2] at hfl <;> cases hfl
      subst hnil
      exact ⟨[], [], rfl, by simp, by simp⟩
    | some y =>
      rw [hfl] at h
      have h' : some (if y.length ≤ x.length then x else y) = some m := h
      by_cases hw : y.length ≤ x.length
      · rw [if_pos hw] at h'
        cases h'
        exact ⟨[], l', rfl, by simp,
          fun z hz => le_trans (firstLongest_le l' y hfl z hz) hw⟩
      · rw [if_neg hw] at h'
        cases h'
        obtain ⟨l₁, l₂, rfl, h1, h2⟩ := ih m hfl
        exact ⟨x :: l₁, l₂, rfl, by
          intro z hz
          rcases List.mem_cons.mp hz with rfl | hz'
          · omega
          · exact h1 z hz', h2⟩

/-! ## The network model

An HTTP response carries the fields the source inspects: `ok`
(`requests.Response.ok`), the `Content-Type` header (absent = `none`),
the post-redirect final URL (`r.url`), the raw body bytes (`r.content`),
and the parsed-HTML views that BeautifulSoup would produce: the `href`
of every `<a href=...>` anchor, the `<img>` tags (their `src` and
`data-src` attributes), the `srcset` attribute of every `<source>`, and
the `<meta>` tags (`property`/`name`/`content` attributes), each in
document order. -/

structure ImgTag where
  src : Option String
  dataSrc : Option String
deriving DecidableEq

structure MetaTag where
  propAttr : Option String
  nameAttr : Option String
  content : Option String
deriving DecidableEq

structure HttpResp where
  ok : Bool
  contentType : Option String
  finalUrl : String
  content : List Nat
  anchors : List String
  imgs : List ImgTag
  sources : List (Option String)
  metas : List MetaTag
deriving DecidableEq

/-- The network oracle: `requests.head` and `requests.get` by URL.  A
`none` result models an exception or transport failure (the source
swallows both identically).  The spoofed headers, referers and timeouts
of the source do not influence any branch condition, so they are not part
of the model. -/
structure Net where
  head : String → Option HttpResp
  get : String → Option HttpResp

/-- The oracle on which every request fails (total resolution failure). -/
def netNone : Net := ⟨fun _ => none, fun _ => none⟩

/-- `_is_image_response`: `"image/" in resp.headers.get("Content-Type", "")`. -/
def isImageResp (r : HttpResp) : Bool := strContains (r.contentType.getD "") "image/"

/-- Page-acceptance check shared by the URL-resolution steps:
`r.ok and "text/html" in r.headers.get("Content-Type", "")`. -/
def htmlOkResp (r : HttpResp) : Bool :=
  r.ok && strContains (r.contentType.getD "") "text/html"

/-- Acceptance in `resolve_product_url` / `try_known_catalog_paths`:
an HTML success whose final URL does not contain the literal `"404"`. -/
def acceptPage (r : HttpResp) : Bool :=
  htmlOkResp r && !strContains r.finalUrl "404"

/-- `_head_or_get`: HEAD first, then GET; a response counts only if `ok`
and of image content type, otherwise the next attempt (or `none`). -/
def headOrGet (net : Net) (url : String) : Option HttpResp :=
  match net.head url with
  | some r =>
    if r.ok && isImageResp r then some r
    else match net.get url with
      | some r2 => if r2.ok && isImageResp r2 then some r2 else none
      | none => none
  | none =>
    match net.get url with
    | some r2 => if r2.ok && isImageResp r2 then some r2 else none
    | none => none

/-! ## `urllib.parse.urljoin` (modelled collaborator)

Model of the standard-library resolver for the cases arising here:
absolute `http(s)` bases with absolute, protocol-relative, root-relative
or path-relative references.  Dot-segment normalisation is not needed by
any call site and is omitted. -/

/-- Fuel-driven splitting on a non-empty separator (the fuel, instantiated
with the list length, keeps the recursion structural so that terms reduce
in the kernel).  Same semantics as Python `s.split(sep)` / `String.splitOn`:
non-overlapping leftmost occurrences, empty pieces kept. -/
def splitOnF (sep : List Char) : Nat → List Char → List (List Char)
  | _, [] => [[]]
  | 0, s => [s]
  | fuel + 1, c :: s =>
    if sep ≠ [] && listPrefixB sep (c :: s) then
      [] :: splitOnF sep fuel ((c :: s).drop sep.length)
    else
      match splitOnF sep fuel s with
      | [] => [[c]]
      | r :: rs => (c :: r) :: rs

/-- Python `s.split(sep)` on strings. -/
def strSplitOn (s sep : String) : List String :=
  (splitOnF sep.data s.data.length s.data).map (fun l => ⟨l⟩)

/-- Python `s.strip()`. -/
def strTrim (s : String) : String :=
  ⟨((s.data.dropWhile Char.isWhitespace).reverse.dropWhile Char.isWhitespace).reverse⟩

example : strSplitOn "https://a.com/x" "://" = ["https", "a.com/x"] := by decide
example : strSplitOn "a,,b" "," = ["a", "", "b"] := by decide

/-- Does the reference carry its own scheme (`"x://..."`)? -/
def hasScheme (u : String) : Bool :=
  match strSplitOn u "://" with
  | s :: _ :: _ => s ≠ "" && s.data.all Char.isAlpha
  | _ => false

/-- Scheme of an absolute URL (text before the first `"://"`). -/
def schemeOf (u : String) : String :=
  match strSplitOn u "://" with
  | s :: _ :: _ => s
  | _ => ""

/-- `scheme://host` part of an absolute URL. -/
def schemeNetloc (u : String) : String :=
  match strSplitOn u "://" with
  | s :: r :: _ => s ++ "://" ++ String.mk (r.data.takeWhile (fun c => c ≠ '/'))
  | _ => ""

/-- Host (netloc) of an absolute URL, as `urlparse(u).netloc`. -/
def netlocOf (u : String) : String :=
  match strSplitOn u "://" with
  | _ :: r :: _ => String.mk (r.data.takeWhile (fun c => c ≠ '/'))
  | _ => ""

/-- Keep the base up to and including its last `/`. -/
def upToLastSlash (s : String) : String :=
  String.mk ((s.data.reverse.dropWhile (fun c => c ≠ '/')).reverse)

/-- `urllib.parse.urljoin(base, rel)` for the shapes used by the source. -/
def urljoin (base rel : String) : String :=
  if rel = "" then base
  else if hasScheme rel then rel
  else if strStarts rel "//" then schemeOf base ++ ":" ++ rel
  else if strStarts rel "/" then schemeNetloc base ++ rel
  else upToLastSlash base ++ rel

example : urljoin "https://a.com/x/y" "b.png" = "https://a.com/x/b.png" := by decide
example : urljoin "https://a.com/x/y" "/b.png" = "https://a.com/b.png" := by decide
example : urljoin "https://a.com/x/y" "//c.net/b" = "https://c.net/b" := by decide
example : urljoin "https://a.com/x/y" "http://d.org/z" = "http://d.org/z" := by decide

/-! ## Product URL resolution -/

/-- `_looks_like_logo`: the lowercased URL contains a rejection keyword. -/
def looksLikeLogo (url : String) : Bool :=
  let l := strLower url
  ["logo", "favicon", "ogimage", "social", "icon"].any (fun x => strContains l x)

/-- The fixed ordered catalog URL-prefix templates of
`try_known_catalog_paths` (current taxonomy first, classic second). -/
def crestronBases : List String :=
  [ "https://www.crestron.com/Products/Workspace-Solutions/Unified-Communications/Crestron-Flex-Integrator-Kits/",
    "https://www.crestron.com/Products/Workspace-Solutions/Unified-Communications/Crestron-Flex-Tabletop-Conferencing-Systems/",
    "https://www.crestron.com/Products/Workspace-Solutions/Unified-Communications/Crestron-Flex-Wall-Mount-Conferencing-Systems/",
    "https://www.crestron.com/Products/Workspace-Solutions/Unified-Communications/Intelligent-Audio/",
    "https://www.crestron.com/Products/Catalog/Unified-Communications/Flex-Conferencing/Integrator-Kit/",
    "https://www.crestron.com/Products/Catalog/Unified-Communications/Flex-Conferencing/Tabletop/",
    "https://www.crestron.com/Products/Catalog/Unified-Communications/Flex-Conferencing/Wall-Mount/",
    "https://www.crestron.com/Products/Catalog/Unified-Communications/Intelligent-Audio/Distributed/",
    "https://www.crestron.com/Products/Catalog/Unified-Communications/Intelligent-Audio/USB/" ]

/-- The discontinued-catalog URL:
`.../Inactive/Discontinued/{(sku[0] if sku else "U").upper()}/{sku}`. -/
def discUrl (sku : String) : String :=
  let first := match sku.data with
    | [] => "U"
    | c :: _ => String.mk [c.toUpper]
  "https://www.crestron.com/Products/Catalog/Inactive/Discontinued/" ++ first ++ "/" ++ sku

/-- The probe loop of `try_known_catalog_paths` over the remaining base
templates, then the discontinued path; returns the accepted final URL (if
any) and the list of URLs fetched, in order. -/
def catalogLoop (net : Net) (sku : String) : List String → Option String × List String
  | [] =>
    let d := discUrl sku
    match net.get d with
    | some r => (if acceptPage r then some r.finalUrl else none, [d])
    | none => (none, [d])
  | b :: bs =>
    let url := b ++ sku
    match net.get url with
    | some r =>
      if acceptPage r then (some r.finalUrl, [url])
      else
        let rest := catalogLoop net sku bs
        (rest.1, url :: rest.2)
    | none =>
      let rest := catalogLoop net sku bs
      (rest.1, url :: rest.2)

/-- `try_known_catalog_paths` with an explicit fetch log. -/
def try_known_catalog_paths (net : Net) (sku : String) : Option String × List String :=
  catalogLoop net sku crestronBases

/-- First variant of the catalog's own search page for a query. -/
def crestronSearchUrl1 (q : String) : String :=
  "https://www.crestron.com/en-US/Search?q=" ++ quotePlus q

/-- Second variant of the catalog's own search page for a query. -/
def crestronSearchUrl2 (q : String) : String :=
  "https://www.crestron.com/Search?q=" ++ quotePlus q

/-- `search_crestron_for_sku`: scan both search-page variants for an
anchor that resolves under a catalog path and contains the SKU
case-insensitively.  (Defined in the source but never invoked by
`resolve_product_url`.) -/
def search_crestron_for_sku (net : Net) (sku : String) : Option String :=
  [crestronSearchUrl1 sku, crestronSearchUrl2 sku].findSome? (fun q =>
    match net.get q with
    | some r =>
      if htmlOkResp r then
        r.anchors.findSome? (fun href =>
          if href ≠ "" then
            let absHref := urljoin q href
            if strContains absHref "/Products/" && strContains absHref "/Catalog" &&
                strContains (strUpper absHref) sku then
              some absHref
            else none
          else none)
      else none
    | none => none)

/-- First DuckDuckGo query URL for `search_catalog_via_duckduckgo`. -/
def ddgUrl1 (query : String) : String :=
  "https://duckduckgo.com/html/?q=" ++ quotePlus ("site:crestron.com Products/Catalog " ++ query)

/-- Second DuckDuckGo query URL. -/
def ddgUrl2 (query : String) : String :=
  "https://duckduckgo.com/html/?q=" ++ quotePlus ("site:crestron.com " ++ query)

/-- Anchor filter of `search_catalog_via_duckduckgo`: a truthy href
containing the catalog domain, a products segment, and a catalog or
workspace-solutions segment.  The raw href is returned (no `urljoin`). -/
def ddgAccept (href : String) : Bool :=
  href ≠ "" && strContains href "crestron.com" && strContains href "/Products/" &&
    (strContains href "/Catalog/" || strContains href "/Workspace-Solutions/")

/-- One DuckDuckGo results page: the first accepted anchor, if any. -/
def ddgScanPage (net : Net) (u : String) : Option String :=
  match net.get u with
  | some r => if htmlOkResp r then r.anchors.find? ddgAccept else none
  | none => none

/-- `search_catalog_via_duckduckgo` with an explicit fetch log. -/
def search_catalog_via_duckduckgo (net : Net) (query : String) :
    Option String × List String :=
  let u1 := ddgUrl1 query
  let u2 := ddgUrl2 query
  match ddgScanPage net u1 with
  | some h => (some h, [u1])
  | none =>
    match ddgScanPage net u2 with
    | some h => (some h, [u1, u2])
    | none => (none, [u1, u2])

/-- Step 1 of `resolve_product_url`: accept a good proposed URL (GET with
redirects; success, HTML, and no literal `"404"` in the final URL). -/
def stepProposed (net : Net) (proposed_url : Option String) :
    Option String × List String :=
  match proposed_url with
  | some pu =>
    if pu = "" then (none, [])
    else
      match net.get pu with
      | some r => (if acceptPage r then some r.finalUrl else none, [pu])
      | none => (none, [pu])
  | none => (none, [])

/-- Step 2: known catalog paths for the extracted SKU. -/
def stepSku (net : Net) (sku : Option String) : Option String × List String :=
  match sku with
  | some s => try_known_catalog_paths net s
  | none => (none, [])

/-- `query = sku or product_name` (Python truthiness). -/
def resolveQuery (product_name : String) (sku : Option String) : String :=
  match sku with
  | some s => if s = "" then product_name else s
  | none => product_name

/-- Step 3: DuckDuckGo catalog search, only for a truthy query. -/
def stepDdg (net : Net) (query : String) : Option String × List String :=
  if query = "" then (none, []) else search_catalog_via_duckduckgo net query

/-- Step 4, the terminal fallback:
`f"https://www.crestron.com/en-US/Search?q={quote_plus(query or 'Crestron')}"`. -/
def fallbackUrl (query : String) : String :=
  crestronSearchUrl1 (if query = "" then "Crestron" else query)

/-- The uncached resolution pipeline of `resolve_product_url` (steps 1-4,
first success wins), with the list of fetched URLs as instrumentation. -/
def resolveSteps (net : Net) (product_name : String) (proposed_url : Option String) :
    String × List String :=
  let s1 := stepProposed net proposed_url
  match s1.1 with
  | some u => (u, s1.2)
  | none =>
    let sku := extract_sku product_name
    let s2 := stepSku net sku
    match s2.1 with
    | some u => (u, s1.2 ++ s2.2)
    | none =>
      let q := resolveQuery product_name sku
      let s3 := stepDdg net q
      match s3.1 with
      | some u => (u, s1.2 ++ s2.2 ++ s3.2)
      | none => (fallbackUrl q, s1.2 ++ s2.2 ++ s3.2)

/-- The module-level cache `URL_CACHE: dict[str, Optional[str]] = {}`,
modelled as an association list (insertion only ever happens on a miss,
so head-insertion agrees with dict assignment). -/
def Cache : Type := List (String × Option String)

/-- `key = f"{product_name}||{proposed_url or ''}"`. -/
def cacheKey (product_name : String) (proposed_url : Option String) : String :=
  product_name ++ "||" ++ proposed_url.getD ""

/-- Result of one `resolve_product_url` call: the returned value, the
cache afterwards, and the URLs fetched during the call. -/
structure ResolveOut where
  result : Option String
  cache : List (String × Option String)
  log : List String

/-- `resolve_product_url`: cache hit short-circuits; otherwise the
pipeline runs and its result is stored under the key before returning. -/
def resolve_product_url (net : Net) (cache : List (String × Option String))
    (product_name : String) (proposed_url : Option String) : ResolveOut :=
  let key := cacheKey product_name proposed_url
  match cache.lookup key with
  | some v => ⟨v, cache, []⟩
  | none =>
    let p := resolveSteps net product_name proposed_url
    ⟨some p.1, (key, some p.1) :: cache, p.2⟩

example :
    (resolve_product_url netNone [] "" none).result =
      some "https://www.crestron.com/en-US/Search?q=Crestron" := by decide
example : (resolve_product_url netNone [] "" none).log = [] := by decide
example :
    (resolveSteps netNone " " none).1 =
      "https://www.crestron.com/en-US/Search?q=+" := by decide

/-! ## The CDN size-upgrade rewrite

`re.sub(r"/(\d+)px@1x/", "/1000px@1x/", u)`.  The pattern admits no
backtracking ambiguity (`\d+` is maximal because `p` is not a digit), so
`re.sub` is a left-to-right scan replacing each non-overlapping match. -/

/-- Maximal digit run at the head: `(digits, rest)`. -/
def takeDigits : List Char → List Char × List Char
  | [] => ([], [])
  | c :: cs =>
    if c.isDigit then
      let p := takeDigits cs
      (c :: p.1, p.2)
    else ([], c :: cs)

/-- The literal tail of the size-segment pattern after the digits. -/
def pxTail : List Char := ['p', 'x', '@', '1', 'x', '/']

/-- Try to match `\d+px@1x/` at the head of `cs` (the leading `/` was
already consumed); returns the digits and the rest after the whole match. -/
def sizeMatch (cs : List Char) : Option (List Char × List Char) :=
  if (takeDigits cs).1 = [] then none
  else if listPrefixB pxTail (takeDigits cs).2 then
    some ((takeDigits cs).1, (takeDigits cs).2.drop 6)
  else none

/-- The replacement text (with its surrounding slashes). -/
def targetSeg : List Char := '/' :: '1' :: '0' :: '0' :: '0' :: pxTail

/-- Left-to-right scan of `re.sub` for this pattern (fuel keeps the
recursion structural; instantiated with the list length, an upper bound
on the scan steps). -/
def subSizeF : Nat → List Char → List Char
  | 0, s => s
  | fuel + 1, s =>
    match s with
    | [] => []
    | c :: cs =>
      if c = '/' then
        match sizeMatch cs with
        | some p => targetSeg ++ subSizeF fuel p.2
        | none => c :: subSizeF fuel cs
      else c :: subSizeF fuel cs

/-- `re.sub(r"/(\d+)px@1x/", "/1000px@1x/", u)`. -/
def rewriteSize (u : String) : String := ⟨subSizeF u.data.length u.data⟩

example : rewriteSize "https://embed.widencdn.net/img/crestron/abc/640px@1x/p.png" =
    "https://embed.widencdn.net/img/crestron/abc/1000px@1x/p.png" := by decide
example : rewriteSize "https://e/12px@1x/34px@1x/" = "https://e/1000px@1x/34px@1x/" := by decide
example : rewriteSize "https://e/640px@1x/1000px@1x/a" = "https://e/1000px@1x/1000px@1x/a" := by decide

/-! ## Image resolution -/

/-- The trusted-CDN marker substring. -/
def widenSub : String := "embed.widencdn.net/img/crestron"

/-- `PLACEHOLDER_IMAGE` from the source. -/
def PLACEHOLDER_IMAGE : String :=
  "https://upload.wikimedia.org/wikipedia/commons/3/3f/Placeholder_view_vector.svg"

/-- `soup.find("meta", attrs={"property": key}) or soup.find("meta", attrs={"name": key})`. -/
def findMeta (metas : List MetaTag) (key : String) : Option MetaTag :=
  match metas.find? (fun t => t.propAttr = some key) with
  | some t => some t
  | none => metas.find? (fun t => t.nameAttr = some key)

/-- The meta keys scanned by `_fetch_og_image`, in priority order. -/
def ogKeys : List String := ["og:image", "twitter:image", "og:image:url"]

/-- The key loop of `_fetch_og_image`: the first key whose tag has truthy
content wins; the content is resolved against the page URL. -/
def ogScan (page_url : String) (metas : List MetaTag) : Option String :=
  ogKeys.findSome? (fun key =>
    match findMeta metas key with
    | some t =>
      match t.content with
      | some c => if c = "" then none else some (urljoin page_url c)
      | none => none
    | none => none)

/-- `_fetch_og_image`: GET the page, require an HTML success, scan metas. -/
def fetch_og_image (net : Net) (page_url : String) : Option String :=
  match net.get page_url with
  | some r => if htmlOkResp r then ogScan page_url r.metas else none
  | none => none

/-- Candidates contributed by one `src`/`data-src` attribute value:
resolved against the page and kept only when on the trusted CDN. -/
def attrCands (page_url : String) (v : Option String) : List String :=
  match v with
  | some s =>
    if s = "" then []
    else
      let absu := urljoin page_url s
      if strContains absu widenSub then [absu] else []
  | none => []

/-- Candidates of one `<img>` tag (`src` then `data-src`). -/
def imgCands (page_url : String) (img : ImgTag) : List String :=
  attrCands page_url img.src ++ attrCands page_url img.dataSrc

/-- Candidates of one `<source srcset=...>`: each comma-separated entry is
stripped, split on spaces, and its first token resolved and filtered. -/
def srcsetCands (page_url : String) (srcset : Option String) : List String :=
  match srcset with
  | some s =>
    if s = "" then []
    else
      (strSplitOn s ",").flatMap (fun part =>
        let up := (strSplitOn (strTrim part) " ").headD ""
        if up = "" then []
        else
          let absu := urljoin page_url up
          if strContains absu widenSub then [absu] else [])
  | none => []

/-- The seen-set deduplication loop, keeping first occurrences. -/
def dedupFirstAux (seen : List String) : List String → List String
  | [] => []
  | x :: xs =>
    if seen.contains x then dedupFirstAux seen xs
    else x :: dedupFirstAux (x :: seen) xs

/-- Deduplication keeping first occurrences (the seen-set loop). -/
def dedupFirst (l : List String) : List String := dedupFirstAux [] l

/-- `_extract_crestron_best_image`: gather Widen-CDN candidates from
`<img>`/`<source>` tags, else a non-logo preview-meta image; dedupe; first
pass prefers a trusted-CDN candidate upgraded by the size rewrite and
validated by `_head_or_get`; second pass takes any validated non-logo
candidate. -/
def extract_crestron_best_image (net : Net) (page_url : String) : Option String :=
  match net.get page_url with
  | none => none
  | some r =>
    if htmlOkResp r then
      let cands0 := r.imgs.flatMap (imgCands page_url) ++
        r.sources.flatMap (srcsetCands page_url)
      let cands :=
        if cands0 = [] then
          match fetch_og_image net page_url with
          | some og => if looksLikeLogo og then [] else [og]
          | none => []
        else cands0
      let uniq := dedupFirst cands
      let pass1 := uniq.findSome? (fun u =>
        if strContains u widenSub && !looksLikeLogo u then
          let u2 := rewriteSize u
          if (headOrGet net u2).isSome then some u2 else none
        else none)
      match pass1 with
      | some u2 => some u2
      | none => uniq.find? (fun u => !looksLikeLogo u && (headOrGet net u).isSome)
    else none

/-- `resolve_image_url` step 1: the proposed image, normalised against the
product URL when protocol- or root-relative, validated and non-logo. -/
def imgProposed (net : Net) (image_url : Option String) (product_url : Option String) :
    Option String :=
  match image_url with
  | some iu =>
    if iu = "" then none
    else
      let testUrl :=
        match product_url with
        | some pu =>
          if pu ≠ "" && (strStarts iu "//" || strStarts iu "/") then
            let base := if strEnds pu "/" then pu else pu ++ "/"
            urljoin base iu
          else iu
        | none => iu
      if (headOrGet net testUrl).isSome && !looksLikeLogo testUrl then some testUrl
      else none
  | none => none

/-- The catalog-domain scrape branch of `resolve_image_url`: only for a
product page hosted on the catalog domain, and gated by the logo filter
(`if best and not _looks_like_logo(best): return best`). -/
def imgFromCrestron (net : Net) (pu : String) : Option String :=
  if strContains (strLower (netlocOf pu)) "crestron.com" then
    match extract_crestron_best_image net pu with
    | some best => if looksLikeLogo best then none else some best
    | none => none
  else none

/-- The preview-meta branch of `resolve_image_url`: a non-logo
`og:image`-style URL that validates as an image. -/
def imgOgValidated (net : Net) (pu : String) : Option String :=
  match fetch_og_image net pu with
  | some og =>
    if !looksLikeLogo og && (headOrGet net og).isSome then some og else none
  | none => none

/-- `resolve_image_url`: proposed image first; then, when the product page
is on the catalog domain, the best scraped image; then the preview-meta
image — each gated by the logo filter. -/
def resolve_image_url (net : Net) (image_url : Option String)
    (product_url : Option String) : Option String :=
  match imgProposed net image_url product_url with
  | some u => some u
  | none =>
    match product_url with
    | some pu =>
      if pu = "" then none
      else
        match imgFromCrestron net pu with
        | some b => some b
        | none => imgOgValidated net pu
    | none => none

/-! ## Image embedding -/

/-- The base64 alphabet. -/
def b64Alphabet : List Char :=
  "ABCDEFGHIJKLMNOPQRSTUVWXYZabcdefghijklmnopqrstuvwxyz0123456789+/".data

def b64Char (n : Nat) : Char := b64Alphabet.getD n 'A'

/-- Standard base64 of a byte list, with padding. -/
def base64Chunks : List Nat → List Char
  | [] => []
  | [b1] =>
    let n := b1 % 256
    [b64Char (n / 4), b64Char (n % 4 * 16), '=', '=']
  | [b1, b2] =>
    let n := b1 % 256 * 256 + b2 % 256
    [b64Char (n / 1024), b64Char (n / 16 % 64), b64Char (n % 16 * 4), '=']
  | b1 :: b2 :: b3 :: rest =>
    let n := (b1 % 256 * 256 + b2 % 256) * 256 + b3 % 256
    b64Char (n / 262144) :: b64Char (n / 4096 % 64) :: b64Char (n / 64 % 64) ::
      b64Char (n % 64) :: base64Chunks rest

/-- `base64.b64encode(content).decode("ascii")`. -/
def base64Encode (content : List Nat) : String := ⟨base64Chunks content⟩

example : base64Encode [77, 97, 110] = "TWFu" := by decide
example : base64Encode [77, 97] = "TWE=" := by decide
example : base64Encode [77] = "TQ==" := by decide

/-- The inner `_to_data_uri`. -/
def toDataUri (content : List Nat) (content_type : String) : String :=
  "data:" ++ content_type ++ ";base64," ++ base64Encode content

/-- The main attempt of `embed_image_data_uri`: a truthy URL whose GET is
an ok, non-empty, image-typed response, encoded with the observed
content type (default `image/jpeg`). -/
def embedMain (net : Net) (url : Option String) : Option String :=
  match url with
  | some u =>
    if u = "" then none
    else
      match net.get u with
      | some r =>
        if r.ok && r.content ≠ [] && isImageResp r then
          some (toDataUri r.content (r.contentType.getD "image/jpeg"))
        else none
      | none => none
  | none => none

/-- `embed_image_data_uri`: embed the resolved image as a data URI; on any
failure embed the placeholder (default content type `image/svg+xml`, no
image-type check); if even that fails, return the placeholder's remote
URL.  The referer only influences request headers, never a branch. -/
def embed_image_data_uri (net : Net) (url : Option String) (referer : Option String) :
    String :=
  match embedMain net url with
  | some s => s
  | none =>
    match net.get PLACEHOLDER_IMAGE with
    | some r =>
      if r.ok && r.content ≠ [] then toDataUri r.content (r.contentType.getD "image/svg+xml")
      else PLACEHOLDER_IMAGE
    | none => PLACEHOLDER_IMAGE

/-! ## Properties of the size rewrite -/

theorem subSizeF_cons_ne (f : Nat) (c : Char) (cs : List Char) (hc : c ≠ '/') :
    subSizeF (f + 1) (c :: cs) = c :: subSizeF f cs := by
  conv_lhs => unfold subSizeF
  simp [hc]

theorem subSizeF_slash_match (f : Nat) (cs : List Char) (p : List Char × List Char)
    (hm : sizeMatch cs = some p) :
    subSizeF (f + 1) ('/' :: cs) = targetSeg ++ subSizeF f p.2 := by
  conv_lhs => unfold subSizeF
  simp [hm]

theorem subSizeF_slash_none (f : Nat) (cs : List Char) (hm : sizeMatch cs = none) :
    subSizeF (f + 1) ('/' :: cs) = '/' :: subSizeF f cs := by
  conv_lhs => unfold subSizeF
  simp [hm]

theorem takeDigits_append_eq (cs : List Char) :
    (takeDigits cs).1 ++ (takeDigits cs).2 = cs := by
  induction cs with
  | nil => simp [takeDigits]
  | cons c cs ih =>
    by_cases h : c.isDigit
    · simp [takeDigits, h, ih]
    · simp [takeDigits, h]

theorem takeDigits_all_digit (cs : List Char) :
    ∀ c ∈ (takeDigits cs).1, c.isDigit := by
  induction cs with
  | nil => simp [takeDigits]
  | cons c cs ih =>
    by_cases h : c.isDigit
    · simp only [takeDigits, h, if_true]
      intro x hx
      rcases List.mem_cons.mp hx with rfl | hx'
      · exact h
      · exact ih x hx'
    · simp [takeDigits, h]

theorem takeDigits_rest_head (cs : List Char) (c : Char)
    (h : (takeDigits cs).2.head? = some c) : ¬c.isDigit := by
  induction cs with
  | nil => simp [takeDigits] at h
  | cons d cs ih =>
    by_cases hd : d.isDigit
    · simp only [takeDigits, hd, if_true] at h
      exact ih h
    · simp only [takeDigits, hd, if_false] at h
      cases h
      exact hd

theorem takeDigits_of_digits (ds r : List Char)
    (hds : ∀ c ∈ ds, c.isDigit)
    (hr : ∀ c, r.head? = some c → ¬c.isDigit) :
    takeDigits (ds ++ r) = (ds, r) := by
  induction ds with
  | nil =>
    cases r with
    | nil => simp [takeDigits]
    | cons c r' =>
      have : ¬c.isDigit := hr c rfl
      simp [takeDigits, this]
  | cons d ds' ih =>
    have hd : d.isDigit = true := hds d (List.mem_cons_self d ds')
    have ih' := ih (fun c hc => hds c (List.mem_cons_of_mem _ hc))
    simp [takeDigits, hd, ih']

theorem listPrefixB_decompose (p s : List Char) (h : listPrefixB p s = true) :
    s = p ++ s.drop p.length := by
  induction p generalizing s with
  | nil => simp
  | cons c ps ih =>
    cases s with
    | nil => simp [listPrefixB] at h
    | cons d ss =>
      simp only [listPrefixB, Bool.and_eq_true, decide_eq_true_eq] at h
      obtain ⟨rfl, h2⟩ := h
      simpa using ih ss h2

theorem sizeMatch_eq_some (cs ds rest : List Char)
    (h : sizeMatch cs = some (ds, rest)) :
    cs = ds ++ pxTail ++ rest ∧ ds ≠ [] ∧ (∀ c ∈ ds, c.isDigit) := by
  unfold sizeMatch at h
  split at h
  · cases h
  · split at h
    · rename_i hne hpre
      cases h
      refine ⟨?_, hne, takeDigits_all_digit cs⟩
      have hd := takeDigits_append_eq cs
      have hr := listPrefixB_decompose pxTail (takeDigits cs).2 hpre
      have h6 : pxTail.length = 6 := by decide
      rw [h6] at hr
      conv_lhs => rw [← hd, hr]
      rw [List.append_assoc]
    · cases h

theorem sizeMatch_none_nil : sizeMatch [] = none := by decide

theorem sizeMatch_none_of_head (c : Char) (cs : List Char) (hc : ¬c.isDigit) :
    sizeMatch (c :: cs) = none := by
  unfold sizeMatch
  simp [takeDigits, hc]

theorem sizeMatch_none_cases (cs : List Char) (h : sizeMatch cs = none) :
    (takeDigits cs).1 = [] ∨ listPrefixB pxTail (takeDigits cs).2 = false := by
  unfold sizeMatch at h
  split at h
  · left; assumption
  · split at h
    · cases h
    · right
      rename_i hpre
      exact Bool.not_eq_true _ ▸ (by simpa using hpre)

theorem subSizeF_head (fuel : Nat) (s : List Char) :
    (subSizeF fuel s).head? = s.head? := by
  cases fuel with
  | zero => rfl
  | succ f =>
    cases s with
    | nil => rfl
    | cons c cs =>
      by_cases hc : c = '/'
      · subst hc
        unfold subSizeF
        cases hm : sizeMatch cs with
        | some p => simp [hm, targetSeg]
        | none => simp [hm]
      · unfold subSizeF
        simp [hc]

theorem subSizeF_copy_run (ds : List Char) (hds : ∀ c ∈ ds, c ≠ '/') :
    ∀ (f : Nat) (r : List Char),
      subSizeF f (ds ++ r) = ds ++ subSizeF (f - ds.length) r := by
  induction ds with
  | nil => intro f r; simp
  | cons d ds' ih =>
    intro f r
    have hd : d ≠ '/' := hds d (List.mem_cons_self d ds')
    cases f with
    | zero => simp [subSizeF]
    | succ f' =>
      have ih' := ih (fun c hc => hds c (List.mem_cons_of_mem _ hc)) f' r
      calc subSizeF (f' + 1) ((d :: ds') ++ r)
          = d :: subSizeF f' (ds' ++ r) := by
            rw [List.cons_append]; exact subSizeF_cons_ne f' d _ hd
        _ = d :: (ds' ++ subSizeF (f' - ds'.length) r) := by rw [ih']
        _ = (d :: ds') ++ subSizeF ((f' + 1) - (d :: ds').length) r := by
            simp [List.length_cons, Nat.succ_sub_succ]

theorem sizeMatch_target (X : List Char) :
    sizeMatch (('1' :: '0' :: '0' :: '0' :: pxTail) ++ X) =
      some (['1', '0', '0', '0'], X) := by
  have htd : takeDigits (('1' :: '0' :: '0' :: '0' :: []) ++ (pxTail ++ X)) =
      (['1', '0', '0', '0'], pxTail ++ X) := by
    apply takeDigits_of_digits
    · intro c hc
      simp only [List.mem_cons, List.not_mem_nil, or_false] at hc
      rcases hc with rfl | rfl | rfl | rfl <;> decide
    · intro c hc
      simp only [pxTail, List.cons_append, List.head?_cons, Option.some.injEq] at hc
      subst hc
      decide
  have heq : ('1' :: '0' :: '0' :: '0' :: pxTail) ++ X =
      ('1' :: '0' :: '0' :: '0' :: []) ++ (pxTail ++ X) := by simp
  rw [heq]
  unfold sizeMatch
  rw [htd]
  have hpre : listPrefixB pxTail (pxTail ++ X) = true := by
    apply listPrefixB_append
    simp [pxTail, listPrefixB]
  simp only [hpre, if_true]
  have hdrop : (pxTail ++ X).drop 6 = X := by simp [pxTail]
  simp [hdrop]

/-- A literal whose non-final characters are not `/` is a prefix of the
rewrite's output only when it is a prefix of the input. -/
theorem listPrefixB_of_sub (lit : List Char) (hlit : ∀ c ∈ lit.dropLast, c ≠ '/') :
    ∀ (fuel : Nat) (r : List Char),
      listPrefixB lit (subSizeF fuel r) = true → listPrefixB lit r = true := by
  induction lit with
  | nil => intro fuel r _; rfl
  | cons a lit' ih =>
    intro fuel r h
    have hhead : (subSizeF fuel r).head? = r.head? := subSizeF_head fuel r
    cases hout : subSizeF fuel r with
    | nil => rw [hout] at h; simp [listPrefixB] at h
    | cons z Z =>
      rw [hout] at h
      simp only [listPrefixB, Bool.and_eq_true, decide_eq_true_eq] at h
      obtain ⟨rfl, hZ⟩ := h
      rw [hout] at hhead
      cases r with
      | nil => simp at hhead
      | cons b r' =>
        simp only [List.head?_cons, Option.some.injEq] at hhead
        subst hhead
        by_cases ha : a = '/'
        · subst ha
          cases hl' : lit' with
          | nil => simp [listPrefixB]
          | cons e es =>
            exfalso
            have : '/' ∈ (('/' : Char) :: lit').dropLast := by
              rw [hl']
              simp
            exact hlit '/' this rfl
        · cases fuel with
          | zero =>
            have h0 : subSizeF 0 (a :: r') = a :: r' := rfl
            rw [h0] at hout
            cases hout
            simp only [listPrefixB, Bool.and_eq_true, decide_eq_true_eq]
            exact ⟨trivial, hZ⟩
          | succ f =>
            rw [subSizeF_cons_ne f a r' ha] at hout
            obtain ⟨rfl⟩ : Z = subSizeF f r' := by
              injection hout with h1 h2
              exact h2.symm ▸ rfl
            have hlit' : ∀ c ∈ lit'.dropLast, c ≠ '/' := by
              intro c hc
              apply hlit
              cases lit' with
              | nil => simp at hc
              | cons e es =>
                have hdl : (a :: e :: es).dropLast = a :: (e :: es).dropLast := rfl
                rw [hdl]
                exact List.mem_cons_of_mem _ hc
            have := ih hlit' f r' hZ
            simp only [listPrefixB, Bool.and_eq_true, decide_eq_true_eq]
            exact ⟨trivial, this⟩

theorem sizeMatch_sub_none (fuel : Nat) (s : List Char)
    (h : sizeMatch s = none) : sizeMatch (subSizeF fuel s) = none := by
  rcases hcase : (takeDigits s).1 with _ | ⟨d, ds'⟩
  · cases s with
    | nil =>
      have hz : subSizeF fuel [] = [] := by cases fuel <;> rfl
      rw [hz]
      exact sizeMatch_none_nil
    | cons c cs =>
      have hcd : ¬c.isDigit := by
        intro hd
        simp [takeDigits, hd] at hcase
      have hhead := subSizeF_head fuel (c :: cs)
      cases hout : subSizeF fuel (c :: cs) with
      | nil => exact sizeMatch_none_nil
      | cons z Z =>
        rw [hout] at hhead
        simp only [List.head?_cons, Option.some.injEq] at hhead
        rw [hhead]
        exact sizeMatch_none_of_head c Z hcd
  · have hsplit := takeDigits_append_eq s
    have hds : ∀ c ∈ (takeDigits s).1, c.isDigit := takeDigits_all_digit s
    have hpre : listPrefixB pxTail (takeDigits s).2 = false := by
      rcases sizeMatch_none_cases s h with h1 | h2
      · rw [hcase] at h1; cases h1
      · exact h2
    have hnoslash : ∀ c ∈ (takeDigits s).1, c ≠ '/' := by
      intro c hc hcc
      have := hds c hc
      rw [hcc] at this
      exact absurd this (by decide)
    have hcopy := subSizeF_copy_run (takeDigits s).1 hnoslash fuel (takeDigits s).2
    rw [← hsplit, hcopy]
    have hheadZ := subSizeF_head (fuel - (takeDigits s).1.length) (takeDigits s).2
    have htd : takeDigits ((takeDigits s).1 ++
        subSizeF (fuel - (takeDigits s).1.length) (takeDigits s).2) =
        ((takeDigits s).1, subSizeF (fuel - (takeDigits s).1.length) (takeDigits s).2) := by
      apply takeDigits_of_digits _ _ hds
      intro c hc
      rw [hheadZ] at hc
      exact takeDigits_rest_head s c hc
    unfold sizeMatch
    rw [htd]
    have hne : (takeDigits s).1 ≠ [] := by rw [hcase]; simp
    have hprefix2 : listPrefixB pxTail
        (subSizeF (fuel - (takeDigits s).1.length) (takeDigits s).2) = false := by
      cases hb : listPrefixB pxTail
          (subSizeF (fuel - (takeDigits s).1.length) (takeDigits s).2) with
      | false => rfl
      | true =>
        have hb2 := listPrefixB_of_sub pxTail (by decide) _ _ hb
        rw [hb2] at hpre
        cases hpre
    simp [hne, hprefix2]

/-- The checker of the rewrite's fixed points: every size segment
`/(\d+)px@1x/` found by the same left-to-right scan already carries the
target digit group `1000`. -/
def sizesOkF : Nat → List Char → Bool
  | _, [] => true
  | 0, _ => true
  | fuel + 1, c :: cs =>
    if c = '/' then
      match sizeMatch cs with
      | some p => decide (p.1 = ['1', '0', '0', '0']) && sizesOkF fuel p.2
      | none => sizesOkF fuel cs
    else sizesOkF fuel cs

/-- Every size segment of the URL is already at the 1000px target. -/
def allSizesTarget (u : String) : Bool := sizesOkF u.data.length u.data

theorem sizesOkF_cons_ne (f : Nat) (c : Char) (cs : List Char) (hc : c ≠ '/') :
    sizesOkF (f + 1) (c :: cs) = sizesOkF f cs := by
  conv_lhs => unfold sizesOkF
  simp [hc]

theorem sizesOkF_slash_match (f : Nat) (cs : List Char) (p : List Char × List Char)
    (hm : sizeMatch cs = some p) :
    sizesOkF (f + 1) ('/' :: cs) =
      (decide (p.1 = ['1', '0', '0', '0']) && sizesOkF f p.2) := by
  conv_lhs => unfold sizesOkF
  simp [hm]

theorem sizesOkF_slash_none (f : Nat) (cs : List Char) (hm : sizeMatch cs = none) :
    sizesOkF (f + 1) ('/' :: cs) = sizesOkF f cs := by
  conv_lhs => unfold sizesOkF
  simp [hm]

theorem sizeMatch_some_length (cs : List Char) (p : List Char × List Char)
    (hm : sizeMatch cs = some p) : p.2.length + 7 ≤ cs.length := by
  obtain ⟨hdecomp, hne, _⟩ := sizeMatch_eq_some cs p.1 p.2 hm
  have hlen : cs.length = p.1.length + pxTail.length + p.2.length := by
    rw [hdecomp]
    simp only [List.length_append]
  have h6 : pxTail.length = 6 := by decide
  have hp1 : 1 ≤ p.1.length := by
    cases hp : p.1 with
    | nil => exact absurd hp hne
    | cons _ _ => simp [hp]
  omega

theorem subSizeF_id_of_ok (fuel : Nat) :
    ∀ s : List Char, s.length ≤ fuel → sizesOkF fuel s = true → subSizeF fuel s = s := by
  induction fuel with
  | zero => intro s _ _; rfl
  | succ f ih =>
    intro s hlen hok
    cases s with
    | nil => rfl
    | cons c cs =>
      by_cases hc : c = '/'
      · subst hc
        cases hm : sizeMatch cs with
        | some p =>
          rw [subSizeF_slash_match f cs p hm]
          rw [sizesOkF_slash_match f cs p hm] at hok
          simp only [Bool.and_eq_true, decide_eq_true_eq] at hok
          obtain ⟨h1000, hok2⟩ := hok
          obtain ⟨hdecomp, _, _⟩ := sizeMatch_eq_some cs p.1 p.2 hm
          have hlenp : p.2.length ≤ f := by
            have := sizeMatch_some_length cs p hm
            simp only [List.length_cons] at hlen
            omega
          rw [ih p.2 hlenp hok2]
          rw [hdecomp, h1000]
          simp [targetSeg]
        | none =>
          rw [subSizeF_slash_none f cs hm]
          rw [sizesOkF_slash_none f cs hm] at hok
          have hl : cs.length ≤ f := by
            simp only [List.length_cons] at hlen; omega
          rw [ih cs hl hok]
      · rw [subSizeF_cons_ne f c cs hc]
        rw [sizesOkF_cons_ne f c cs hc] at hok
        have hl : cs.length ≤ f := by
          simp only [List.length_cons] at hlen; omega
        rw [ih cs hl hok]

theorem sizesOkF_nil (f2 : Nat) : sizesOkF f2 [] = true := by
  cases f2 <;> rfl

theorem sizesOk_subSizeF (fuel : Nat) :
    ∀ (s : List Char) (f2 : Nat), s.length ≤ fuel →
      sizesOkF f2 (subSizeF fuel s) = true := by
  induction fuel with
  | zero =>
    intro s f2 hlen
    have hs : s = [] := List.length_eq_zero.mp (Nat.le_zero.mp hlen)
    subst hs
    exact sizesOkF_nil f2
  | succ f ih =>
    intro s f2 hlen
    cases s with
    | nil =>
      have hz : subSizeF (f + 1) [] = [] := rfl
      rw [hz]
      exact sizesOkF_nil f2
    | cons c cs =>
      by_cases hc : c = '/'
      · subst hc
        cases hm : sizeMatch cs with
        | some p =>
          rw [subSizeF_slash_match f cs p hm]
          cases f2 with
          | zero => rfl
          | succ f2' =>
            have hts : targetSeg ++ subSizeF f p.2 =
                '/' :: (('1' :: '0' :: '0' :: '0' :: pxTail) ++ subSizeF f p.2) := by
              simp [targetSeg]
            rw [hts]
            rw [sizesOkF_slash_match f2' _ _ (sizeMatch_target (subSizeF f p.2))]
            have hlenp : p.2.length ≤ f := by
              have := sizeMatch_some_length cs p hm
              simp only [List.length_cons] at hlen
              omega
            simp [ih p.2 f2' hlenp]
        | none =>
          rw [subSizeF_slash_none f cs hm]
          cases f2 with
          | zero => rfl
          | succ f2' =>
            rw [sizesOkF_slash_none f2' _ (sizeMatch_sub_none f cs hm)]
            exact ih cs f2' (by simp only [List.length_cons] at hlen; omega)
      · rw [subSizeF_cons_ne f c cs hc]
        cases f2 with
        | zero => rfl
        | succ f2' =>
          rw [sizesOkF_cons_ne f2' c _ hc]
          exact ih cs f2' (by simp only [List.length_cons] at hlen; omega)

theorem rewriteSize_allTarget (u : String) : allSizesTarget (rewriteSize u) = true :=
  sizesOk_subSizeF u.data.length u.data _ (Nat.le_refl _)

theorem rewriteSize_id_of_target (u : String) (h : allSizesTarget u = true) :
    rewriteSize u = u := by
  unfold rewriteSize
  rw [subSizeF_id_of_ok u.data.length u.data (Nat.le_refl _) h]

theorem rewriteSize_idem (u : String) :
    rewriteSize (rewriteSize u) = rewriteSize u :=
  rewriteSize_id_of_target _ (rewriteSize_allTarget u)

/-! ## Cache behaviour of `resolve_product_url` -/

theorem resolve_hit (net : Net) (cache : List (String × Option String))
    (name : String) (purl : Option String) (v : Option String)
    (h : cache.lookup (cacheKey name purl) = some v) :
    resolve_product_url net cache name purl = ⟨v, cache, []⟩ := by
  simp only [resolve_product_url, h]

theorem resolve_miss (net : Net) (cache : List (String × Option String))
    (name : String) (purl : Option String)
    (h : cache.lookup (cacheKey name purl) = none) :
    resolve_product_url net cache name purl =
      ⟨some (resolveSteps net name purl).1,
       (cacheKey name purl, some (resolveSteps net name purl).1) :: cache,
       (resolveSteps net name purl).2⟩ := by
  simp only [resolve_product_url, h]

theorem lookup_insert_self (key : String) (v : Option String)
    (cache : List (String × Option String)) :
    ((key, v) :: cache).lookup key = some v := by
  simp [List.lookup]

theorem lookup_insert_ne (key k : String) (hk : k ≠ key) (v : Option String)
    (cache : List (String × Option String)) :
    ((key, v) :: cache).lookup k = cache.lookup k := by
  have hbeq : (k == key) = false := beq_eq_false_iff_ne.mpr hk
  simp [List.lookup, hbeq]

/-- One call never removes or overwrites an existing cache entry. -/
theorem resolve_preserves (net : Net) (cache : List (String × Option String))
    (name : String) (purl : Option String) (k : String) (v : Option String)
    (h : cache.lookup k = some v) :
    (resolve_product_url net cache name purl).cache.lookup k = some v := by
  cases hl : cache.lookup (cacheKey name purl) with
  | some w => rw [resolve_hit net cache name purl w hl]; exact h
  | none =>
    rw [resolve_miss net cache name purl hl]
    by_cases hk : k = cacheKey name purl
    · subst hk; rw [h] at hl; cases hl
    · show ((cacheKey name purl, some (resolveSteps net name purl).1) :: cache).lookup k
        = some v
      rw [lookup_insert_ne _ _ hk]
      exact h

/-- After any call the resolved value sits in the cache under its key. -/
theorem resolve_caches_result (net : Net) (cache : List (String × Option String))
    (name : String) (purl : Option String) :
    (resolve_product_url net cache name purl).cache.lookup (cacheKey name purl) =
      some (resolve_product_url net cache name purl).result := by
  cases hl : cache.lookup (cacheKey name purl) with
  | some w => rw [resolve_hit net cache name purl w hl]; exact hl
  | none =>
    rw [resolve_miss net cache name purl hl]
    exact lookup_insert_self _ _ _

/-- Replay of an arbitrary sequence of later resolver calls. -/
def runCalls (cache : List (String × Option String)) :
    List (Net × String × Option String) → List (String × Option String)
  | [] => cache
  | (net, name, purl) :: rest =>
    runCalls (resolve_product_url net cache name purl).cache rest

theorem runCalls_preserves (calls : List (Net × String × Option String)) :
    ∀ (cache : List (String × Option String)) (k : String) (v : Option String),
      cache.lookup k = some v → (runCalls cache calls).lookup k = some v := by
  induction calls with
  | nil => intro cache k v h; exact h
  | cons call rest ih =>
    intro cache k v h
    obtain ⟨net, name, purl⟩ := call
    exact ih _ k v (resolve_preserves net cache name purl k v h)

/-! ## Totality and URL-shape of the resolution result -/

/-- A non-empty, space-free piece of URL text (the syntactic-validity
notion used below: URI references contain no literal space). -/
def IsUrlText (s : String) : Prop := s.data ≠ [] ∧ ' ' ∉ s.data

/-- Well-formedness of the ambient HTTP library: a delivered response has
a non-empty, space-free final URL (`requests` always reports the requested
or redirected URL) and its parsed anchors carry space-free hrefs. -/
def NetWF (net : Net) : Prop :=
  ∀ u r, net.get u = some r →
    (r.finalUrl.data ≠ [] ∧ ' ' ∉ r.finalUrl.data) ∧ ∀ a ∈ r.anchors, ' ' ∉ a.data

/-- Every value stored in the cache is a present, well-shaped URL (true of
every reachable cache: only the resolver writes, and it writes its own
result). -/
def CacheWF (cache : List (String × Option String)) : Prop :=
  ∀ kv ∈ cache, ∃ s, kv.2 = some s ∧ IsUrlText s

theorem netNone_wf : NetWF netNone := by
  intro u r h
  cases h

theorem strData_ne_nil_of_ne (s : String) (h : s ≠ "") : s.data ≠ [] := by
  intro hd
  apply h
  cases s
  simp at hd
  simp [hd]

theorem fallbackUrl_urlText (q : String) : IsUrlText (fallbackUrl q) := by
  constructor
  · unfold fallbackUrl crestronSearchUrl1
    intro hnil
    rw [String.data_append] at hnil
    simp at hnil
  · intro hmem
    unfold fallbackUrl crestronSearchUrl1 at hmem
    rw [String.data_append] at hmem
    rcases List.mem_append.mp hmem with h | h
    · exact absurd h (by decide)
    · exact quotePlus_no_space _ h

theorem stepProposed_some (net : Net) (purl : Option String) (u : String)
    (h : (stepProposed net purl).1 = some u) :
    ∃ pu r, net.get pu = some r ∧ u = r.finalUrl := by
  unfold stepProposed at h
  cases purl with
  | none => simp at h
  | some pu =>
    by_cases hpu : pu = ""
    · simp [hpu] at h
    · simp only [hpu, if_false] at h
      cases hg : net.get pu with
      | none => rw [hg] at h; simp at h
      | some r =>
        rw [hg] at h
        simp only at h
        split at h
        · cases h; exact ⟨pu, r, hg, rfl⟩
        · cases h

theorem catalogLoop_some (net : Net) (sku : String) (bs : List String) (u : String)
    (h : (catalogLoop net sku bs).1 = some u) :
    ∃ url r, net.get url = some r ∧ u = r.finalUrl := by
  induction bs with
  | nil =>
    simp only [catalogLoop] at h
    cases hg : net.get (discUrl sku) with
    | none => rw [hg] at h; simp at h
    | some r =>
      rw [hg] at h
      simp only at h
      split at h
      · refine ⟨discUrl sku, r, hg, ?_⟩
        injection h with h2
        exact h2.symm
      · simp at h
  | cons b rest ih =>
    simp only [catalogLoop] at h
    cases hg : net.get (b ++ sku) with
    | none =>
      rw [hg] at h
      simp only at h
      exact ih h
    | some r =>
      rw [hg] at h
      simp only at h
      split at h
      · refine ⟨b ++ sku, r, hg, ?_⟩
        injection h with h2
        exact h2.symm
      · exact ih h

theorem ddgScanPage_some (net : Net) (u href : String)
    (h : ddgScanPage net u = some href) :
    ddgAccept href = true ∧ ∃ r, net.get u = some r ∧ href ∈ r.anchors := by
  unfold ddgScanPage at h
  cases hg : net.get u with
  | none => rw [hg] at h; cases h
  | some r =>
    rw [hg] at h
    simp only at h
    split at h
    · exact ⟨List.find?_some h, r, rfl, List.mem_of_find?_eq_some h⟩
    · cases h

theorem ddg_some (net : Net) (q href : String)
    (h : (search_catalog_via_duckduckgo net q).1 = some href) :
    ddgAccept href = true ∧ ∃ page r, net.get page = some r ∧ href ∈ r.anchors := by
  simp only [search_catalog_via_duckduckgo] at h
  cases h1 : ddgScanPage net (ddgUrl1 q) with
  | some x =>
    rw [h1] at h
    simp only at h
    injection h with hx
    subst hx
    obtain ⟨ha, r, hg, hm⟩ := ddgScanPage_some net _ _ h1
    exact ⟨ha, _, r, hg, hm⟩
  | none =>
    rw [h1] at h
    simp only at h
    cases h2 : ddgScanPage net (ddgUrl2 q) with
    | some x =>
      rw [h2] at h
      simp only at h
      injection h with hx
      subst hx
      obtain ⟨ha, r, hg, hm⟩ := ddgScanPage_some net _ _ h2
      exact ⟨ha, _, r, hg, hm⟩
    | none =>
      rw [h2] at h
      simp at h

theorem ddgAccept_ne_empty (href : String) (h : ddgAccept href = true) :
    href.data ≠ [] := by
  unfold ddgAccept at h
  simp only [Bool.and_eq_true, decide_eq_true_eq] at h
  exact strData_ne_nil_of_ne href h.1.1.1

/-- Under a well-formed network, the uncached pipeline always produces a
non-empty, space-free URL. -/
theorem resolveSteps_urlText (net : Net) (hwf : NetWF net)
    (name : String) (purl : Option String) :
    IsUrlText (resolveSteps net name purl).1 := by
  simp only [resolveSteps]
  cases h1 : (stepProposed net purl).1 with
  | some u =>
    obtain ⟨pu, r, hg, rfl⟩ := stepProposed_some net purl u h1
    exact (hwf pu r hg).1
  | none =>
    cases hsku : extract_sku name with
    | some s =>
      cases h2 : (stepSku net (some s)).1 with
      | some u =>
        simp only [stepSku] at h2
        obtain ⟨url, r, hg, rfl⟩ := catalogLoop_some net s crestronBases u h2
        exact (hwf url r hg).1
      | none =>
        cases h3 : (stepDdg net (resolveQuery name (some s))).1 with
        | some u =>
          simp only [stepDdg] at h3
          split at h3
          · simp at h3
          · obtain ⟨ha, page, r, hg, hmem⟩ := ddg_some net _ u h3
            exact ⟨ddgAccept_ne_empty u ha, (hwf page r hg).2 u hmem⟩
        | none =>
          exact fallbackUrl_urlText _
    | none =>
      cases h2 : (stepSku net none).1 with
      | some u => simp [stepSku] at h2
      | none =>
        cases h3 : (stepDdg net (resolveQuery name none)).1 with
        | some u =>
          simp only [stepDdg] at h3
          split at h3
          · simp at h3
          · obtain ⟨ha, page, r, hg, hmem⟩ := ddg_some net _ u h3
            exact ⟨ddgAccept_ne_empty u ha, (hwf page r hg).2 u hmem⟩
        | none =>
          exact fallbackUrl_urlText _

/-- When every request fails, the pipeline lands on the terminal fallback. -/
theorem resolveSteps_allFail (net : Net) (hnet : ∀ v, net.get v = none)
    (name : String) (purl : Option String) :
    (resolveSteps net name purl).1 =
      fallbackUrl (resolveQuery name (extract_sku name)) := by
  have h1 : (stepProposed net purl).1 = none := by
    unfold stepProposed
    cases purl with
    | none => rfl
    | some pu =>
      by_cases hpu : pu = ""
      · simp [hpu]
      · simp [hpu, hnet pu]
  have hcat : ∀ (bs : List String) (s : String), (catalogLoop net s bs).1 = none := by
    intro bs s
    induction bs with
    | nil => simp [catalogLoop, hnet]
    | cons b rest ih => simp [catalogLoop, hnet, ih]
  have h2 : ∀ sku, (stepSku net sku).1 = none := by
    intro sku
    cases sku with
    | none => rfl
    | some s => exact hcat crestronBases s
  have hscan : ∀ v, ddgScanPage net v = none := by
    intro v
    unfold ddgScanPage
    rw [hnet v]
  have h3 : ∀ q, (stepDdg net q).1 = none := by
    intro q
    unfold stepDdg
    split
    · rfl
    · simp [search_catalog_via_duckduckgo, hscan]
  simp only [resolveSteps, h1, h2, h3]

theorem mem_of_lookup_some (cache : List (String × Option String)) (k : String)
    (v : Option String) (h : cache.lookup k = some v) : (k, v) ∈ cache := by
  induction cache with
  | nil => cases h
  | cons kv rest ih =>
    obtain ⟨k', v'⟩ := kv
    by_cases hk : k = k'
    · subst hk
      rw [lookup_insert_self] at h
      injection h with hv
      subst hv
      exact List.mem_cons_self _ _
    · rw [lookup_insert_ne _ _ hk] at h
      exact List.mem_cons_of_mem _ (ih h)

/-- C1: for every pair of input strings (product name and optional
proposed URL), `resolve_product_url` returns without raising — all network
failures are swallowed into `none` responses, and the Lean model is a
total function — and its result is a present, non-empty, space-free URL
whenever the HTTP library reports well-formed final URLs and anchors and
the cache holds only such values; in particular, when every request fails
(proposed URL rejected, no catalog probe succeeds, search fails) on an
uncached key, the result is exactly the terminal search-page fallback
URL. -/
theorem C1_resolve_total_valid (net : Net) (cache : List (String × Option String))
    (name : String) (purl : Option String)
    (hwf : NetWF net) (hcache : CacheWF cache) :
    (∃ u, (resolve_product_url net cache name purl).result = some u ∧ IsUrlText u) ∧
    ((∀ v, net.get v = none) → cache.lookup (cacheKey name purl) = none →
      (resolve_product_url net cache name purl).result =
        some (fallbackUrl (resolveQuery name (extract_sku name)))) := by
  constructor
  · cases hl : cache.lookup (cacheKey name purl) with
    | some v =>
      rw [resolve_hit net cache name purl v hl]
      obtain ⟨s, hv, hs⟩ := hcache _ (mem_of_lookup_some cache _ v hl)
      exact ⟨s, hv, hs⟩
    | none =>
      rw [resolve_miss net cache name purl hl]
      exact ⟨_, rfl, resolveSteps_urlText net hwf name purl⟩
  · intro hfail hl
    rw [resolve_miss net cache name purl hl]
    show some (resolveSteps net name purl).1 = _
    rw [resolveSteps_allFail net hfail name purl]

theorem C1_witness :
    NetWF netNone ∧ CacheWF [] ∧
    (∃ u, (resolve_product_url netNone [] "Jabra" none).result = some u ∧ IsUrlText u) ∧
    (resolve_product_url netNone [] "Jabra" none).result =
      some (fallbackUrl (resolveQuery "Jabra" (extract_sku "Jabra"))) := by
  have hwf : NetWF netNone := netNone_wf
  have hc : CacheWF ([] : List (String × Option String)) := by
    intro kv hkv
    cases hkv
  exact ⟨hwf, hc, (C1_resolve_total_valid netNone [] "Jabra" none hwf hc).1,
    (C1_resolve_total_valid netNone [] "Jabra" none hwf hc).2 (fun v => rfl) rfl⟩

/-- C2: the resolver is cache-consistent: an identical second call returns
exactly the first call's result, leaves the cache unchanged, and fetches
nothing (its request log is empty); and an entry, once stored, survives
any sequence of later calls unchanged. -/
theorem C2_resolve_cache_consistent (net : Net)
    (cache : List (String × Option String)) (name : String) (purl : Option String) :
    ((resolve_product_url net (resolve_product_url net cache name purl).cache name purl).result
        = (resolve_product_url net cache name purl).result ∧
     (resolve_product_url net (resolve_product_url net cache name purl).cache name purl).cache
        = (resolve_product_url net cache name purl).cache ∧
     (resolve_product_url net (resolve_product_url net cache name purl).cache name purl).log
        = []) ∧
    (∀ (calls : List (Net × String × Option String)) (k : String) (v : Option String),
      cache.lookup k = some v → (runCalls cache calls).lookup k = some v) := by
  constructor
  · have hres := resolve_caches_result net cache name purl
    rw [resolve_hit net _ name purl _ hres]
    exact ⟨rfl, rfl, rfl⟩
  · intro calls k v h
    exact runCalls_preserves calls cache k v h

theorem C2_witness :
    (([("k", some "v")] : List (String × Option String)).lookup "k" = some (some "v")) ∧
    ((runCalls [("k", some "v")] [(netNone, "X", none)]).lookup "k" = some (some "v")) :=
  ⟨by decide, (C2_resolve_cache_consistent netNone [("k", some "v")] "X" none).2
      [(netNone, "X", none)] "k" (some "v") (by decide)⟩

/-- C3: `extract_sku` upper-cases the name and matches the SKU pattern:
with no match it returns none; with exactly one match it returns that
match; in general it returns the first longest match in match order
(`"UC-BX30-Z"` yields `"UC-BX30-Z"`). -/
theorem C3_extract_sku_deterministic :
    (∀ name : String, skuFindall (strUpper name) = [] → extract_sku name = none) ∧
    (∀ name m : String, skuFindall (strUpper name) = [m] → extract_sku name = some m) ∧
    (∀ name : String, extract_sku name = firstLongest (skuFindall (strUpper name))) ∧
    (∀ name m : String, extract_sku name = some m →
      ∃ l₁ l₂, skuFindall (strUpper name) = l₁ ++ m :: l₂ ∧
        (∀ x ∈ l₁, x.length < m.length) ∧ (∀ x ∈ l₂, x.length ≤ m.length)) ∧
    extract_sku "UC-BX30-Z" = some "UC-BX30-Z" := by
  have hmain : ∀ name : String,
      extract_sku name = firstLongest (skuFindall (strUpper name)) := by
    intro name
    unfold extract_sku
    cases hf : skuFindall (strUpper name) with
    | nil => rfl
    | cons m ms => exact head_sortLenDesc (m :: ms)
  refine ⟨?_, ?_, hmain, ?_, by decide⟩
  · intro name h
    rw [hmain name, h]
    rfl
  · intro name m h
    rw [hmain name, h]
    simp [firstLongest]
  · intro name m h
    rw [hmain name] at h
    exact firstLongest_split _ m h

theorem C3_witness :
    skuFindall (strUpper "jabra panacast") = [] ∧
    extract_sku "jabra panacast" = none ∧
    skuFindall (strUpper "UC-BX30-Z") = ["UC-BX30-Z"] ∧
    extract_sku "UC-BX30-Z" = some "UC-BX30-Z" :=
  ⟨by decide, C3_extract_sku_deterministic.1 "jabra panacast" (by decide), by decide,
   C3_extract_sku_deterministic.2.1 "UC-BX30-Z" "UC-BX30-Z" (by decide)⟩

/-! ## Which URLs the resolver fetches -/

theorem listPrefixB_refl (p : List Char) : listPrefixB p p = true := by
  induction p with
  | nil => rfl
  | cons c ps ih => simp [listPrefixB, ih]

theorem strStarts_append (a b p : String) (h : strStarts a p = true) :
    strStarts (a ++ b) p = true := by
  unfold strStarts at *
  rw [String.data_append]
  exact listPrefixB_append _ _ _ h

theorem catalogLoop_log (net : Net) (sku : String) (bs : List String) :
    ∀ u ∈ (catalogLoop net sku bs).2, (∃ b ∈ bs, u = b ++ sku) ∨ u = discUrl sku := by
  induction bs with
  | nil =>
    intro u hu
    simp only [catalogLoop] at hu
    cases hg : net.get (discUrl sku) with
    | none =>
      rw [hg] at hu
      simp at hu
      right
      exact hu
    | some r =>
      rw [hg] at hu
      simp at hu
      right
      exact hu
  | cons b rest ih =>
    intro u hu
    simp only [catalogLoop] at hu
    cases hg : net.get (b ++ sku) with
    | none =>
      rw [hg] at hu
      simp only at hu
      rcases List.mem_cons.mp hu with rfl | hu'
      · exact Or.inl ⟨b, List.mem_cons_self _ _, rfl⟩
      · rcases ih u hu' with ⟨b', hb', rfl⟩ | h
        · exact Or.inl ⟨b', List.mem_cons_of_mem _ hb', rfl⟩
        · exact Or.inr h
    | some r =>
      rw [hg] at hu
      simp only at hu
      split at hu
      · simp at hu
        exact Or.inl ⟨b, List.mem_cons_self _ _, hu⟩
      · rcases List.mem_cons.mp hu with rfl | hu'
        · exact Or.inl ⟨b, List.mem_cons_self _ _, rfl⟩
        · rcases ih u hu' with ⟨b', hb', rfl⟩ | h
          · exact Or.inl ⟨b', List.mem_cons_of_mem _ hb', rfl⟩
          · exact Or.inr h

theorem ddg_log (net : Net) (q : String) :
    ∀ u ∈ (search_catalog_via_duckduckgo net q).2, u = ddgUrl1 q ∨ u = ddgUrl2 q := by
  intro u hu
  simp only [search_catalog_via_duckduckgo] at hu
  cases h1 : ddgScanPage net (ddgUrl1 q) with
  | some x =>
    rw [h1] at hu
    simp at hu
    exact Or.inl hu
  | none =>
    rw [h1] at hu
    simp only at hu
    cases h2 : ddgScanPage net (ddgUrl2 q) with
    | some x =>
      rw [h2] at hu
      simp at hu
      exact hu
    | none =>
      rw [h2] at hu
      simp at hu
      exact hu

theorem resolveSteps_none_log (net : Net) (name : String) :
    ∀ u ∈ (resolveSteps net name none).2,
      u ∈ (stepSku net (extract_sku name)).2 ∨
      u ∈ (stepDdg net (resolveQuery name (extract_sku name))).2 := by
  intro u hu
  simp only [resolveSteps] at hu
  have hsp : stepProposed net none = (none, []) := rfl
  rw [hsp] at hu
  simp only at hu
  cases h2 : (stepSku net (extract_sku name)).1 with
  | some w =>
    rw [h2] at hu
    simp at hu
    exact Or.inl hu
  | none =>
    rw [h2] at hu
    simp only at hu
    cases h3 : (stepDdg net (resolveQuery name (extract_sku name))).1 with
    | some w =>
      rw [h3] at hu
      simp only [List.nil_append, List.mem_append] at hu
      exact hu
    | none =>
      rw [h3] at hu
      simp only [List.nil_append, List.mem_append] at hu
      exact hu

theorem crestronBases_pfx :
    ∀ b ∈ crestronBases, strStarts b "https://www.crestron.com/Products/" = true := by
  decide

theorem discUrl_pfx (sku : String) :
    strStarts (discUrl sku) "https://www.crestron.com/Products/" = true := by
  simp only [discUrl]
  apply strStarts_append
  apply strStarts_append
  apply strStarts_append
  decide

theorem ddgUrl1_pfx (q : String) :
    strStarts (ddgUrl1 q) "https://duckduckgo.com/html/?q=" = true := by
  unfold ddgUrl1
  apply strStarts_append
  decide

theorem ddgUrl2_pfx (q : String) :
    strStarts (ddgUrl2 q) "https://duckduckgo.com/html/?q=" = true := by
  unfold ddgUrl2
  apply strStarts_append
  decide

/-- C4 counterexample: with a SKU present, the proposed URL absent and
every request failing, the catalog's own search pages (both variants) are
never fetched; the terminal fallback (which is textually the first search
URL, returned unvisited) comes straight after the DuckDuckGo step. -/
theorem C4_counterexample :
    extract_sku "UC-BX30-Z" = some "UC-BX30-Z" ∧
    (resolveSteps netNone "UC-BX30-Z" none).1 = crestronSearchUrl1 "UC-BX30-Z" ∧
    crestronSearchUrl1 "UC-BX30-Z" ∉ (resolveSteps netNone "UC-BX30-Z" none).2 ∧
    crestronSearchUrl2 "UC-BX30-Z" ∉ (resolveSteps netNone "UC-BX30-Z" none).2 := by
  decide

/-- C4 amended: `resolve_product_url` never performs the secondary
internal-search pass: the helper `search_crestron_for_sku` is defined in
the source but never invoked.  With no proposed URL, every URL the
pipeline fetches is a catalog-template probe (under
`https://www.crestron.com/Products/`) or a DuckDuckGo query — never the
catalog's own search page — and when every request fails the terminal
fallback is returned directly after the DuckDuckGo step. -/
theorem C4_amended_no_internal_search :
    (∀ (net : Net) (name u : String),
      u ∈ (resolveSteps net name none).2 →
        strStarts u "https://www.crestron.com/Products/" = true ∨
        strStarts u "https://duckduckgo.com/html/?q=" = true) ∧
    (∀ net : Net, (∀ v, net.get v = none) → ∀ name : String,
      (resolveSteps net name none).1 =
        fallbackUrl (resolveQuery name (extract_sku name))) := by
  constructor
  · intro net name u hu
    rcases resolveSteps_none_log net name u hu with h | h
    · left
      cases hsku : extract_sku name with
      | none =>
        rw [hsku] at h
        simp [stepSku] at h
      | some s =>
        rw [hsku] at h
        rcases catalogLoop_log net s crestronBases u h with ⟨b, hb, rfl⟩ | rfl
        · exact strStarts_append b s _ (crestronBases_pfx b hb)
        · exact discUrl_pfx s
    · right
      simp only [stepDdg] at h
      split at h
      · simp at h
      · rcases ddg_log net _ u h with rfl | rfl
        · exact ddgUrl1_pfx _
        · exact ddgUrl2_pfx _
  · intro net hnet name
    exact resolveSteps_allFail net hnet name none

theorem C4_witness :
    ("https://www.crestron.com/Products/Workspace-Solutions/Unified-Communications/Crestron-Flex-Integrator-Kits/" ++ "UC-BX30-Z")
        ∈ (resolveSteps netNone "UC-BX30-Z" none).2 ∧
    (strStarts ("https://www.crestron.com/Products/Workspace-Solutions/Unified-Communications/Crestron-Flex-Integrator-Kits/" ++ "UC-BX30-Z")
        "https://www.crestron.com/Products/" = true ∨
     strStarts ("https://www.crestron.com/Products/Workspace-Solutions/Unified-Communications/Crestron-Flex-Integrator-Kits/" ++ "UC-BX30-Z")
        "https://duckduckgo.com/html/?q=" = true) ∧
    (resolveSteps netNone "UC-BX30-Z" none).1 =
      fallbackUrl (resolveQuery "UC-BX30-Z" (extract_sku "UC-BX30-Z")) :=
  ⟨by decide,
   C4_amended_no_internal_search.1 netNone "UC-BX30-Z" _ (by decide),
   C4_amended_no_internal_search.2 netNone (fun v => rfl) "UC-BX30-Z"⟩

/-! ## The DuckDuckGo acceptance check (C5) -/

/-- A DuckDuckGo results page whose only anchor is a catalog link for a
different product (it does not contain the SKU `UC-BX30-Z`). -/
def ddgOtherResp : HttpResp :=
  { ok := true, contentType := some "text/html", finalUrl := "",
    content := [], anchors := ["https://www.crestron.com/Products/Catalog/Other-Thing"],
    imgs := [], sources := [], metas := [] }

/-- An oracle on which only the first DuckDuckGo query succeeds. -/
def netDdgOther : Net :=
  { head := fun _ => none,
    get := fun u => if u = ddgUrl1 "UC-BX30-Z" then some ddgOtherResp else none }

/-- C5 counterexample: with SKU `UC-BX30-Z`, the external-search step
accepts and returns an href that does not contain the SKU (not even
case-insensitively). -/
theorem C5_counterexample :
    extract_sku "UC-BX30-Z" = some "UC-BX30-Z" ∧
    (resolveSteps netDdgOther "UC-BX30-Z" none).1 =
      "https://www.crestron.com/Products/Catalog/Other-Thing" ∧
    strContains (strUpper "https://www.crestron.com/Products/Catalog/Other-Thing")
      "UC-BX30-Z" = false := by
  decide

/-- C5 amended: an href accepted by the external-search step is guaranteed
to contain the catalog domain, a `/Products/` segment and a `/Catalog/`
or `/Workspace-Solutions/` segment — but the step never checks the SKU
(that check exists only in the uncalled `search_crestron_for_sku`). -/
theorem C5_amended_ddg_accept (net : Net) (q href : String)
    (h : (search_catalog_via_duckduckgo net q).1 = some href) :
    strContains href "crestron.com" = true ∧ strContains href "/Products/" = true ∧
    (strContains href "/Catalog/" = true ∨
     strContains href "/Workspace-Solutions/" = true) := by
  obtain ⟨ha, -⟩ := ddg_some net q href h
  unfold ddgAccept at ha
  simp only [Bool.and_eq_true, Bool.or_eq_true] at ha
  exact ⟨ha.1.1.2, ha.1.2, ha.2⟩

theorem C5_witness :
    (search_catalog_via_duckduckgo netDdgOther "UC-BX30-Z").1 =
      some "https://www.crestron.com/Products/Catalog/Other-Thing" ∧
    (strContains "https://www.crestron.com/Products/Catalog/Other-Thing"
        "crestron.com" = true ∧
     strContains "https://www.crestron.com/Products/Catalog/Other-Thing"
        "/Products/" = true ∧
     (strContains "https://www.crestron.com/Products/Catalog/Other-Thing"
        "/Catalog/" = true ∨
      strContains "https://www.crestron.com/Products/Catalog/Other-Thing"
        "/Workspace-Solutions/" = true)) :=
  ⟨by decide, C5_amended_ddg_accept netDdgOther "UC-BX30-Z" _ (by decide)⟩

/-! ## The empty / whitespace name (C6) -/

/-- C6 counterexample: a whitespace-only name is truthy in Python, so the
external-search step runs (two DuckDuckGo fetches) and the terminal
fallback carries the plus-encoded whitespace query, not the generic
`Crestron` term. -/
theorem C6_counterexample :
    (resolve_product_url netNone [] " " none).log = [ddgUrl1 " ", ddgUrl2 " "] ∧
    (resolve_product_url netNone [] " " none).log ≠ [] ∧
    (resolve_product_url netNone [] " " none).result =
      some "https://www.crestron.com/en-US/Search?q=+" ∧
    (resolve_product_url netNone [] " " none).result ≠
      some "https://www.crestron.com/en-US/Search?q=Crestron" := by
  decide

/-- C6 amended: only the genuinely empty product name (with no proposed
URL) skips all search steps and returns the generic fallback directly; a
whitespace-only name triggers the DuckDuckGo step with the whitespace
query, and its fallback is parameterised with the plus-encoded whitespace
rather than the generic term. -/
theorem C6_amended_empty_name :
    (∀ net : Net, resolve_product_url net [] "" none =
      ⟨some "https://www.crestron.com/en-US/Search?q=Crestron",
       [("||", some "https://www.crestron.com/en-US/Search?q=Crestron")], []⟩) ∧
    (resolve_product_url netNone [] " " none).log = [ddgUrl1 " ", ddgUrl2 " "] ∧
    (resolve_product_url netNone [] " " none).result =
      some "https://www.crestron.com/en-US/Search?q=+" := by
  refine ⟨?_, by decide, by decide⟩
  intro net
  rw [resolve_miss net [] "" none rfl]
  have hsteps : resolveSteps net "" none =
      ("https://www.crestron.com/en-US/Search?q=Crestron", []) := by
    have hsku : extract_sku "" = none := by decide
    have hsp : stepProposed net none = (none, []) := rfl
    have hss : stepSku net none = (none, []) := rfl
    have hsd : stepDdg net "" = (none, []) := rfl
    simp only [resolveSteps, hsku, hsp, hss, resolveQuery, hsd]
    decide
  rw [hsteps]
  rfl

/-! ## Cache-key collisions (C10) -/

/-- C10 counterexample: the pair of inputs named in the claim does NOT
collide — `f"{name}||{url or ''}"` appends the separator even when the
proposed URL is absent, so name `"A||B"` with no URL gives `"A||B||"`
while name `"A"` with URL `"B"` gives `"A||B"`. -/
theorem C10_counterexample :
    cacheKey "A||B" none = "A||B||" ∧
    cacheKey "A" (some "B") = "A||B" ∧
    cacheKey "A||B" none ≠ cacheKey "A" (some "B") := by
  decide

/-- C10 amended: the key concatenation is nevertheless non-injective —
name `"A||B"` with proposed URL `"C"` and name `"A"` with proposed URL
`"B||C"` are distinct input pairs sharing the key `"A||B||C"`, so after
the first call resolves, the second call returns the cached result of the
first and performs no fetches. -/
theorem C10_amended_key_collision :
    (("A||B", (some "C" : Option String)) ≠ ("A", (some "B||C" : Option String))) ∧
    cacheKey "A||B" (some "C") = cacheKey "A" (some "B||C") ∧
    (resolve_product_url netNone
        (resolve_product_url netNone [] "A||B" (some "C")).cache "A" (some "B||C")).result =
      (resolve_product_url netNone [] "A||B" (some "C")).result ∧
    (resolve_product_url netNone
        (resolve_product_url netNone [] "A||B" (some "C")).cache "A" (some "B||C")).log = [] := by
  decide

/-! ## The logo filter (C7) -/

theorem imgProposed_not_logo (net : Net) (iu pu : Option String) (u : String)
    (h : imgProposed net iu pu = some u) : looksLikeLogo u = false := by
  simp only [imgProposed] at h
  cases iu with
  | none => cases h
  | some s =>
    simp only at h
    by_cases hs : s = ""
    · rw [if_pos hs] at h; cases h
    · rw [if_neg hs] at h
      split at h
      · rename_i hcond
        injection h with hu
        subst hu
        rw [Bool.and_eq_true] at hcond
        simpa using hcond.2
      · cases h

theorem imgFromCrestron_not_logo (net : Net) (pu : String) (u : String)
    (h : imgFromCrestron net pu = some u) : looksLikeLogo u = false := by
  unfold imgFromCrestron at h
  split at h
  · cases hx : extract_crestron_best_image net pu with
    | none => rw [hx] at h; cases h
    | some best =>
      rw [hx] at h
      simp only at h
      by_cases hl : looksLikeLogo best = true
      · rw [if_pos hl] at h; cases h
      · rw [if_neg hl] at h
        injection h with hu
        subst hu
        exact Bool.not_eq_true _ ▸ (by simpa using hl)
  · cases h

theorem imgOgValidated_not_logo (net : Net) (pu : String) (u : String)
    (h : imgOgValidated net pu = some u) : looksLikeLogo u = false := by
  unfold imgOgValidated at h
  cases hog : fetch_og_image net pu with
  | none => rw [hog] at h; cases h
  | some og =>
    rw [hog] at h
    simp only at h
    split at h
    · rename_i hcond
      injection h with hu
      subst hu
      rw [Bool.and_eq_true] at hcond
      simpa using hcond.1
    · cases h

/-- C7: the Image Resolution Engine never returns a URL containing a
rejection keyword (`logo`, `favicon`, `ogimage`, `social`, `icon`,
case-insensitively): every return path — the proposed image, the
trusted-CDN scrape including its size-upgraded rewrites, and the
preview-meta fallback — is gated by the logo filter. -/
theorem C7_image_never_logo (net : Net) (image_url product_url : Option String)
    (u : String) (h : resolve_image_url net image_url product_url = some u) :
    looksLikeLogo u = false := by
  unfold resolve_image_url at h
  cases hp : imgProposed net image_url product_url with
  | some w =>
    rw [hp] at h
    simp only at h
    injection h with hw
    subst hw
    exact imgProposed_not_logo net image_url product_url _ hp
  | none =>
    rw [hp] at h
    simp only at h
    cases product_url with
    | none => cases h
    | some pu =>
      simp only at h
      by_cases hpu : pu = ""
      · rw [if_pos hpu] at h; cases h
      · rw [if_neg hpu] at h
        cases hfc : imgFromCrestron net pu with
        | some b =>
          rw [hfc] at h
          simp only at h
          injection h with hb
          subst hb
          exact imgFromCrestron_not_logo net pu _ hfc
        | none =>
          rw [hfc] at h
          simp only at h
          exact imgOgValidated_not_logo net pu u h

/-- A direct-image response used to exercise the engine. -/
def imgOkResp : HttpResp :=
  { ok := true, contentType := some "image/png", finalUrl := "",
    content := [1], anchors := [], imgs := [], sources := [], metas := [] }

/-- An oracle serving exactly one image URL (on HEAD). -/
def netOneImage : Net :=
  { head := fun v => if v = "https://x.example/p.png" then some imgOkResp else none,
    get := fun _ => none }

theorem C7_witness :
    resolve_image_url netOneImage (some "https://x.example/p.png") none =
      some "https://x.example/p.png" ∧
    looksLikeLogo "https://x.example/p.png" = false :=
  ⟨by decide, C7_image_never_logo netOneImage (some "https://x.example/p.png") none _
      (by decide)⟩

/-! ## The embedding layer (C8) -/

theorem listPrefixB_cancel (a b c : List Char) (h : listPrefixB b c = true) :
    listPrefixB (a ++ b) (a ++ c) = true := by
  induction a with
  | nil => exact h
  | cons x xs ih => simp [listPrefixB, ih]

theorem listContainsB_of_pfxB (p s : List Char) (h : listPrefixB p s = true) :
    listContainsB p s = true := by
  cases s with
  | nil => exact h
  | cons c s' =>
    unfold listContainsB
    rw [h]
    rfl

theorem toDataUri_data (content : List Nat) (ct : String) :
    (toDataUri content ct).data =
      "data:".data ++ (ct.data ++ (";base64,".data ++ (base64Encode content).data)) := by
  unfold toDataUri
  simp [String.data_append, List.append_assoc]

theorem toDataUri_starts_data (content : List Nat) (ct : String) :
    strStarts (toDataUri content ct) "data:" = true := by
  unfold strStarts
  rw [toDataUri_data]
  apply listPrefixB_append
  decide

theorem toDataUri_ne_empty (content : List Nat) (ct : String) :
    toDataUri content ct ≠ "" := by
  intro h
  have hd : (toDataUri content ct).data = [] := by rw [h]
  rw [toDataUri_data] at hd
  simp at hd

theorem toDataUri_starts_image (content : List Nat) (ct : String)
    (hct : strStarts ct "image/" = true) :
    strStarts (toDataUri content ct) "data:image/" = true := by
  unfold strStarts
  rw [toDataUri_data]
  have hsplit : ("data:image/").data = "data:".data ++ "image/".data := by decide
  rw [hsplit]
  apply listPrefixB_cancel
  exact listPrefixB_append _ _ _ hct

theorem isImageResp_of_pfxB (r : HttpResp) (ct : String)
    (hr : r.contentType = some ct) (hct : strStarts ct "image/" = true) :
    isImageResp r = true := by
  unfold isImageResp
  rw [hr]
  exact listContainsB_of_pfxB _ _ hct

theorem embedMain_some (net : Net) (url : Option String) (s : String)
    (h : embedMain net url = some s) :
    ∃ content ct, s = toDataUri content ct := by
  unfold embedMain at h
  cases url with
  | none => cases h
  | some u =>
    simp only at h
    by_cases hu : u = ""
    · rw [if_pos hu] at h; cases h
    · rw [if_neg hu] at h
      cases hg : net.get u with
      | none => rw [hg] at h; cases h
      | some r =>
        rw [hg] at h
        simp only at h
        split at h
        · injection h with hs
          exact ⟨r.content, r.contentType.getD "image/jpeg", hs.symm⟩
        · cases h

/-- C8: `embed_image_data_uri` is total (every failure is swallowed into a
`none` response), never returns the empty string, and always returns a
data URI or the placeholder's remote URL; a valid image response (ok,
non-empty body, content type starting with `image/`) is embedded as a
data URI tagged with the observed content type, hence starting with
`data:image/`; and with nothing to embed, the result is the placeholder
data URI or, when even the placeholder fetch fails, its raw remote URL. -/
theorem C8_embed_total (net : Net) (url referer : Option String) :
    (embed_image_data_uri net url referer ≠ "") ∧
    (strStarts (embed_image_data_uri net url referer) "data:" = true ∨
      embed_image_data_uri net url referer = PLACEHOLDER_IMAGE) ∧
    (∀ u r ct, url = some u → u ≠ "" → net.get u = some r → r.ok = true →
      r.content ≠ [] → r.contentType = some ct → strStarts ct "image/" = true →
      embed_image_data_uri net url referer = toDataUri r.content ct ∧
      strStarts (embed_image_data_uri net url referer) "data:image/" = true) ∧
    (embedMain net url = none →
      embed_image_data_uri net url referer = PLACEHOLDER_IMAGE ∨
      ∃ r, net.get PLACEHOLDER_IMAGE = some r ∧ (r.ok && r.content ≠ []) = true ∧
        embed_image_data_uri net url referer =
          toDataUri r.content (r.contentType.getD "image/svg+xml")) := by
  have hshape : (∃ content ct,
      embed_image_data_uri net url referer = toDataUri content ct) ∨
      embed_image_data_uri net url referer = PLACEHOLDER_IMAGE := by
    unfold embed_image_data_uri
    cases hm : embedMain net url with
    | some s =>
      obtain ⟨content, ct, rfl⟩ := embedMain_some net url s hm
      exact Or.inl ⟨content, ct, rfl⟩
    | none =>
      cases hg : net.get PLACEHOLDER_IMAGE with
      | none => exact Or.inr rfl
      | some r =>
        simp only
        split
        · exact Or.inl ⟨_, _, rfl⟩
        · exact Or.inr rfl
  refine ⟨?_, ?_, ?_, ?_⟩
  · rcases hshape with ⟨content, ct, heq⟩ | heq
    · rw [heq]; exact toDataUri_ne_empty content ct
    · rw [heq]; decide
  · rcases hshape with ⟨content, ct, heq⟩ | heq
    · rw [heq]; exact Or.inl (toDataUri_starts_data content ct)
    · exact Or.inr heq
  · intro u r ct hurl hu hg hok hcontent hct hpre
    subst hurl
    have hmain : embedMain net (some u) = some (toDataUri r.content ct) := by
      unfold embedMain
      simp only [hu, if_false, hg]
      have himg := isImageResp_of_pfxB r ct hct hpre
      have hcond : (r.ok && r.content ≠ [] && isImageResp r) = true := by
        simp [hok, hcontent, himg]
      rw [if_pos hcond, hct]
      rfl
    have hres : embed_image_data_uri net (some u) referer = toDataUri r.content ct := by
      unfold embed_image_data_uri
      rw [hmain]
    exact ⟨hres, by rw [hres]; exact toDataUri_starts_image r.content ct hpre⟩
  · intro hmain
    unfold embed_image_data_uri
    rw [hmain]
    cases hg : net.get PLACEHOLDER_IMAGE with
    | none => exact Or.inl rfl
    | some r =>
      simp only
      split
      · rename_i hcond
        exact Or.inr ⟨r, rfl, hcond, rfl⟩
      · exact Or.inl rfl

/-- An oracle serving one valid image over GET (for the witness). -/
def netOneGetImage : Net :=
  { head := fun _ => none,
    get := fun v =>
      if v = "https://y.example/i.png" then
        some { ok := true, contentType := some "image/png", finalUrl := "",
               content := [77, 97, 110], anchors := [], imgs := [], sources := [],
               metas := [] }
      else none }

theorem C8_witness :
    embed_image_data_uri netOneGetImage (some "https://y.example/i.png") none =
      toDataUri [77, 97, 110] "image/png" ∧
    strStarts (embed_image_data_uri netOneGetImage (some "https://y.example/i.png") none)
      "data:image/" = true := by
  have h := (C8_embed_total netOneGetImage (some "https://y.example/i.png") none).2.2.1
    "https://y.example/i.png" _ "image/png" rfl (by decide) rfl rfl (by decide) rfl
    (by decide)
  exact h

/-! ## The size rewrite claims (C9) -/

/-- C9 counterexample: a URL that contains `/1000px@1x/` but also a
second, smaller size segment is changed by the rewrite — "already
containing the target segment" does not make a URL a fixed point. -/
theorem C9_counterexample :
    strContains "https://e/640px@1x/1000px@1x/a" "/1000px@1x/" = true ∧
    rewriteSize "https://e/640px@1x/1000px@1x/a" ≠ "https://e/640px@1x/1000px@1x/a" := by
  decide

/-- C9 amended: the rewrite leaves a URL unchanged when every size segment
it scans is already the 1000px target, and applying the rewrite twice
always yields the same string as applying it once (idempotence). -/
theorem C9_amended_idempotent :
    (∀ u : String, allSizesTarget u = true → rewriteSize u = u) ∧
    (∀ u : String, rewriteSize (rewriteSize u) = rewriteSize u) :=
  ⟨rewriteSize_id_of_target, rewriteSize_idem⟩

theorem C9_witness :
    allSizesTarget "https://e/1000px@1x/a.png" = true ∧
    rewriteSize "https://e/1000px@1x/a.png" = "https://e/1000px@1x/a.png" :=
  ⟨by decide, C9_amended_idempotent.1 "https://e/1000px@1x/a.png" (by decide)⟩
